import Mathlib

/-!
# Verification of the go-bip39 BIP-39 mnemonic library

Shallow embedding of the repository's Go code (`bip39_mnemonic.go`,
`bip39_utils.go`, entropy generation) into Lean 4, together with theorems
settling the specification claims.

Modelling conventions:
* Go `string` values are modelled as `List Char` (the library only handles
  ASCII data, where Go's byte-wise string operations agree with the
  character-wise ones).
* Go `[]byte` is modelled as `List Nat`, each element intended `< 256`
  (stated as a hypothesis where it matters).
* Fallible Go functions returning `(T, error)` are modelled with `Except`
  (when the `T` result is `nil` exactly on error) or with explicit pairs
  when the Go code can return both a non-nil value and an error.
* External collaborators that are not part of the repository — SHA-256,
  PBKDF2/SHA-512, and the `crypto/rand` source — are parameters of the
  embedded functions.
* The English word list `wordsListEn` lives in a repository file that is not
  part of the embedded sources; it is modelled as a parameter `wl` and its
  properties (a lexicographically sorted array of exactly 2048 words, per
  the specification) appear as hypotheses of the theorems.
-/

set_option maxRecDepth 8192

namespace BIP39

/-- Go string, as a list of characters. -/
abbrev Str := List Char

/-- The error values the library can produce.  `wordsNum`, `invalidWord`,
`checksum`, `binaryString` and `entropyBitLen` are the package's own error
variables; `parseSyn` and `parseRange` model the errors returned by the Go
standard library `strconv.ParseInt`; `randFail` models an error value
returned by the external `crypto/rand` source. -/
inductive Err where
  | wordsNum
  | invalidWord
  | checksum
  | binaryString
  | entropyBitLen
  | parseSyn
  | parseRange
  | randFail
deriving DecidableEq, Repr

/-- Is the character a binary digit? -/
def isBinDigit (c : Char) : Bool := c = '0' || c = '1'

/-- Numeric value of one binary digit character (non-digits count as 0). -/
def bitVal (c : Char) : Nat := if c = '1' then 1 else 0

/-- Value of a binary-digit string, most significant digit first. -/
def parseBits (s : Str) : Nat :=
  s.foldl (fun acc c => 2 * acc + bitVal c) 0

/-- The binary digits of a natural number, most significant first
(empty for 0). -/
def natBits : Nat → Str
  | 0 => []
  | n + 1 =>
    natBits ((n + 1) / 2) ++ [if (n + 1) % 2 = 1 then '1' else '0']
decreasing_by exact Nat.div_lt_self (Nat.succ_pos n) (by omega)

/-- Binary representation of `n` as Go `fmt.Sprintf` with verb `%b`
produces it: the digits of `n`, with `0` rendered as `"0"`. -/
def binRepr (n : Nat) : Str := if n = 0 then ['0'] else natBits n

/-- Binary representation of `n` zero-padded on the left to width `w`:
Go `fmt.Sprintf` with verb `%.wb` on a non-negative value. -/
def padBin (w n : Nat) : Str :=
  List.replicate (w - (binRepr n).length) '0' ++ binRepr n

/-- From `bip39_utils.go`, `bytesToBinaryString`: each byte expands to its
8-digit zero-padded binary representation (`%.8b`), in byte order. -/
def bytesToBinaryString (slice : List Nat) : Str :=
  (slice.map (padBin 8)).flatten

/-- Modelled from the Go standard library: `strconv.ParseInt(s, 2, 16)`.
Accepts an optional leading sign followed by at least one binary digit;
returns the parsed value together with an optional error, as Go does
(0 with a syntax error on malformed input, a clamped value with a range
error on overflow of 16-bit signed range). -/
def parseIntB2 (s : Str) : Int × Option Err :=
  let neg : Bool := s.head? = some '-'
  let digits := if s.head? = some '+' ∨ s.head? = some '-' then s.tail else s
  if digits = [] ∨ ¬ digits.all isBinDigit then (0, some .parseSyn)
  else
    let v : Int := if neg then -(parseBits digits : Int) else (parseBits digits : Int)
    if v < -32768 ∨ 32767 < v then
      (if v < 0 then -32768 else 32767, some .parseRange)
    else (v, none)

/-- The loop body of `binaryStringToBytes`: consume the string 8 characters
at a time, parse each group with `strconv.ParseInt(_, 2, 16)`, stop at the
first parse error, and truncate each parsed value to a byte
(Go `byte(byteVal)`). -/
def chunksToBytes (s : Str) : Except Err (List Nat) :=
  match s with
  | [] => .ok []
  | c :: cs =>
    match parseIntB2 ((c :: cs).take 8) with
    | (_, some e) => .error e
    | (v, none) =>
      match chunksToBytes (cs.drop 7) with
      | .error e => .error e
      | .ok rest => .ok ((v % 256).toNat :: rest)
termination_by s.length
decreasing_by simp; omega

/-- From `bip39_utils.go`, `binaryStringToBytes`: fails with
`ErrBinaryString` when the length is not a multiple of 8, otherwise parses
each 8-character group via `strconv.ParseInt(_, 2, 16)`, propagating its
error, and truncates each value to one byte. -/
def binaryStringToBytes (binStr : Str) : Except Err (List Nat) :=
  if binStr.length % 8 ≠ 0 then .error .binaryString
  else chunksToBytes binStr

/-- Byte-wise lexicographic strict order on strings, as Go's `<` on
`string` behaves for ASCII data. -/
def strLt : Str → Str → Bool
  | [], [] => false
  | [], _ :: _ => true
  | _ :: _, [] => false
  | a :: as, b :: bs =>
    if a.toNat < b.toNat then true
    else if a.toNat = b.toNat then strLt as bs
    else false

/-- Modelled from the Go standard library: the binary-search loop of
`sort.Search` — invariant `0 ≤ i ≤ j ≤ n`, midpoint `h = (i+j)/2`,
narrowing to the smallest index at which the predicate holds. -/
def searchLoop (pred : Nat → Bool) (i j : Nat) : Nat :=
  if h : i < j then
    if pred ((i + j) / 2) then searchLoop pred i ((i + j) / 2)
    else searchLoop pred ((i + j) / 2 + 1) j
  else i
termination_by j - i
decreasing_by all_goals omega

/-- Modelled from the Go standard library: `sort.SearchStrings(a, x)`,
i.e. `sort.Search(len(a), fun i => a[i] >= x)`. -/
def searchStrings (a : List Str) (x : Str) : Nat :=
  searchLoop (fun h => !(strLt (a.getD h []) x)) 0 a.length

/-- From `bip39_utils.go`, `stringBinarySearch`: index of `elem` in
`slice` via `sort.SearchStrings`, `-1` when not present. -/
def stringBinarySearch (slice : List Str) (elem : Str) : Int :=
  if searchStrings slice elem ≠ slice.length ∧
      slice.getD (searchStrings slice elem) [] = elem
  then (searchStrings slice elem : Int) else -1

/-- Modelled from the Go standard library: `strings.Split(s, " ")` —
the substrings between occurrences of the single-space separator
(`Split("", " ")` is `[""]`). -/
def splitOnSpace : Str → List Str
  | [] => [[]]
  | c :: cs =>
    if c = ' ' then [] :: splitOnSpace cs
    else
      match splitOnSpace cs with
      | [] => [[c]]
      | w :: ws => (c :: w) :: ws

/-- Modelled from the Go standard library: `strings.Join(ws, " ")`. -/
def joinWords : List Str → Str
  | [] => []
  | [w] => w
  | w :: v :: ws => w ++ ' ' :: joinWords (v :: ws)

/-- From the entropy-generation file, `validateEntropyBitLen`: membership
of the bit length in the five permitted values. -/
def validateEntropyBitLen (bitLen : Nat) : Option Err :=
  if bitLen = 128 ∨ bitLen = 160 ∨ bitLen = 192 ∨ bitLen = 224 ∨ bitLen = 256
  then none else some .entropyBitLen

/-- From the entropy-generation file, `GenerateEntropy`.  The external
`crypto/rand` source is the parameter `randRead`: given the requested byte
count it yields the final buffer contents together with an optional error
(Go's `rand.Read` fills a freshly allocated `bitLen/8`-byte buffer).  The
Go function returns the pair `(entropy, err)` from `rand.Read` unchanged
on the valid-length path — note the buffer, not `nil`, accompanies a
read error. -/
def GenerateEntropy (randRead : Nat → List Nat × Option Err)
    (bitLen : Nat) : Option (List Nat) × Option Err :=
  match validateEntropyBitLen bitLen with
  | some e => (none, some e)
  | none =>
    let r := randRead (bitLen / 8)
    (some r.1, r.2)

/-- From `bip39_mnemonic.go`: the structure holding the mnemonic words
string. -/
structure Mnemonic where
  Words : Str
deriving DecidableEq, Repr

/-- From `bip39_mnemonic.go`, `validateWordsNum`: membership of the words
number in the five permitted values (the Go map lookup
`wordsNumMap[wordsNum]`). -/
def validateWordsNum (wordsNum : Nat) : Option Err :=
  if wordsNum = 12 ∨ wordsNum = 15 ∨ wordsNum = 18 ∨ wordsNum = 21 ∨ wordsNum = 24
  then none else some .wordsNum

/-- From `bip39_mnemonic.go`, `entropyChecksumBinStr`: the leading
`len(slice)/4` binary digits of the SHA-256 hash of `slice`.  SHA-256 is
external (`crypto/sha256`), passed as the parameter `H`; the real hash
always returns 32 bytes. -/
def entropyChecksumBinStr (H : List Nat → List Nat) (slice : List Nat) : Str :=
  (bytesToBinaryString (H slice)).take (slice.length / 4)

/-- From `bip39_mnemonic.go`, `MnemonicFromEntropy`: validate the bit
length, append the checksum digits to the entropy digits, cut the result
into 11-digit groups, and map each group's value to a word of the list
`wl` (the mnemonic words are joined with single spaces).  `wl.getD _ []`
models the Go indexing `wordsListEn[wordIdx]`, which stays in range on
this path because each group value is below 2048. -/
def MnemonicFromEntropy (H : List Nat → List Nat) (wl : List Str)
    (entropy : List Nat) : Except Err Mnemonic :=
  match validateEntropyBitLen (entropy.length * 8) with
  | some e => .error e
  | none =>
    let entropyBinStr := bytesToBinaryString entropy
    let chksumBinStr := entropyChecksumBinStr H entropy
    let mnemonicBinStr := entropyBinStr ++ chksumBinStr
    let mnemonicLen := mnemonicBinStr.length / 11
    let words := (List.range mnemonicLen).map (fun i =>
      let wordStrBin := (mnemonicBinStr.drop (i * 11)).take 11
      let wordIdx := (parseIntB2 wordStrBin).1
      wl.getD wordIdx.toNat [])
    .ok ⟨joinWords words⟩

/-- From `bip39_mnemonic.go`, `MnemonicFromString`: wrap a raw string,
no validation. -/
def MnemonicFromString (mnemonic : Str) : Mnemonic := ⟨mnemonic⟩

/-- The word loop of `getBinaryStrings`: look up each word with
`stringBinarySearch`, fail with `ErrInvalidWord` at the first word not
found, otherwise append its index as an 11-digit zero-padded binary string
(`fmt.Sprintf` with verb `%.11b`). -/
def wordsToBin (wl : List Str) : List Str → Except Err Str
  | [] => .ok []
  | w :: ws =>
    let wordIdx := stringBinarySearch wl w
    if wordIdx = -1 then .error .invalidWord
    else
      match wordsToBin wl ws with
      | .error e => .error e
      | .ok rest => .ok (padBin 11 wordIdx.toNat ++ rest)

/-- From `bip39_mnemonic.go`, `getBinaryStrings`: split the mnemonic on
single spaces, validate the word count, convert the words back to the
combined binary string, and split it into entropy prefix and checksum
suffix at index `len - len/33`. -/
def getBinaryStrings (wl : List Str) (mnemonic : Mnemonic) :
    Except Err (Str × Str) :=
  let wordsList := splitOnSpace mnemonic.Words
  match validateWordsNum wordsList.length with
  | some e => .error e
  | none =>
    match wordsToBin wl wordsList with
    | .error e => .error e
    | .ok mnemonicBinStr =>
      let chksumLen := mnemonicBinStr.length / 33
      let chksumIdx := mnemonicBinStr.length - chksumLen
      .ok (mnemonicBinStr.take chksumIdx, mnemonicBinStr.drop chksumIdx)

/-- The Go idiom `entropy, _ := binaryStringToBytes(entropyBinStr)` of
`ToEntropy` and `Validate`: the conversion error is discarded, and on
failure the `nil` byte slice behaves as the empty sequence. -/
def decodedEntropy (entropyBinStr : Str) : List Nat :=
  match binaryStringToBytes entropyBinStr with
  | .ok v => v
  | .error _ => []

/-- From `bip39_mnemonic.go`, method `ToEntropy`: decode the binary
strings, convert the entropy prefix to bytes discarding the conversion
error, recompute the checksum and compare. -/
def ToEntropy (H : List Nat → List Nat) (wl : List Str)
    (mnemonic : Mnemonic) : Except Err (List Nat) :=
  match getBinaryStrings wl mnemonic with
  | .error e => .error e
  | .ok (entropyBinStr, chksumBinStr) =>
    if entropyChecksumBinStr H (decodedEntropy entropyBinStr) ≠ chksumBinStr
    then .error .checksum
    else .ok (decodedEntropy entropyBinStr)

/-- From `bip39_mnemonic.go`, method `Validate`: same steps as
`ToEntropy`, returning only the error (`none` when valid). -/
def Validate (H : List Nat → List Nat) (wl : List Str)
    (mnemonic : Mnemonic) : Option Err :=
  match getBinaryStrings wl mnemonic with
  | .error e => some e
  | .ok (entropyBinStr, chksumBinStr) =>
    if entropyChecksumBinStr H (decodedEntropy entropyBinStr) ≠ chksumBinStr
    then some .checksum
    else none

/-- From `bip39_mnemonic.go`, method `IsValid`: `Validate() == nil`. -/
def IsValid (H : List Nat → List Nat) (wl : List Str)
    (mnemonic : Mnemonic) : Bool :=
  Validate H wl mnemonic = none

/-- Modelled from the Go standard library: UTF-8 encoding of one
character, as Go's `[]byte(string)` conversion produces it. -/
def utf8EncodeChar (c : Char) : List Nat :=
  let n := c.toNat
  if n < 128 then [n]
  else if n < 2048 then [192 + n / 64, 128 + n % 64]
  else if n < 65536 then [224 + n / 4096, 128 + (n / 64) % 64, 128 + n % 64]
  else [240 + n / 262144, 128 + (n / 4096) % 64, 128 + (n / 64) % 64, 128 + n % 64]

/-- Modelled from the Go standard library: UTF-8 bytes of a string. -/
def utf8Encode (s : Str) : List Nat := (s.map utf8EncodeChar).flatten

/-- The constant `seedSaltMod` of `bip39_mnemonic.go`. -/
def seedSaltMod : Str := ['m', 'n', 'e', 'm', 'o', 'n', 'i', 'c']

/-- From `bip39_mnemonic.go`, method `GenerateSeed`: validate the
mnemonic, propagating its error with a `nil` seed; on success call the
external `pbkdf2.Key` (parameter `pbk`, standing for PBKDF2 with SHA-512
as configured by `sha512.New`) with the mnemonic words bytes as password,
`"mnemonic" + passphrase` bytes as salt, 2048 rounds and 64-byte output
(`seedPbkdf2Round` and `seedPbkdf2KeyLen`). -/
def GenerateSeed (pbk : List Nat → List Nat → Nat → Nat → List Nat)
    (H : List Nat → List Nat) (wl : List Str)
    (mnemonic : Mnemonic) (passphrase : Str) : Except Err (List Nat) :=
  match Validate H wl mnemonic with
  | some e => .error e
  | none =>
    let salt := seedSaltMod ++ passphrase
    .ok (pbk (utf8Encode mnemonic.Words) (utf8Encode salt) 2048 64)

/-- From `bip39_mnemonic.go`, `MnemonicFromWordsNum`: validate the words
number, generate entropy of bit length `wordsNum*11 - wordsNum/3`
discarding the generation error (Go `entropy, _ :=`), and encode the
resulting buffer. -/
def MnemonicFromWordsNum (randRead : Nat → List Nat × Option Err)
    (H : List Nat → List Nat) (wl : List Str)
    (wordsNum : Nat) : Except Err Mnemonic :=
  match validateWordsNum wordsNum with
  | some e => .error e
  | none =>
    let entropyBitLen := wordsNum * 11 - wordsNum / 3
    let r := GenerateEntropy randRead entropyBitLen
    MnemonicFromEntropy H wl (r.1.getD [])

/-- Stand-in for the repository's `wordsListEn` (its file is not among the
embedded sources).  Modelled from the spec: a lexicographically sorted,
duplicate-free list of exactly 2048 nonempty, space-free words; used to
instantiate the wordlist hypotheses of the witnesses. -/
def wordsListStd : List Str := (List.range 2048).map (padBin 11)

/-- Stand-in for the external SHA-256 function, satisfying its shape
contract (32 output bytes, each below 256); used by the witnesses. -/
def hashStd : List Nat → List Nat := fun _ => List.replicate 32 0

/-- Stand-in for the external PBKDF2 function; used by the witnesses. -/
def pbkStd : List Nat → List Nat → Nat → Nat → List Nat := fun _ _ _ _ => []

/-- A random source that always fails, zero-filling its buffer with the
byte 7; used to exercise the failure paths. -/
def randFailStd : Nat → List Nat × Option Err :=
  fun n => (List.replicate n 7, some .randFail)

/-- `true` exactly on the success constructor of `Except`. -/
def isOkE {α : Type} (x : Except Err α) : Bool :=
  match x with
  | .ok _ => true
  | .error _ => false

/-- The words produced by the encode path, as a function of entropy,
hash and word list: entry `i` of the word list selected by the value of
the `i`-th 11-digit group of the entropy digits followed by the checksum
digits. -/
def encodeWords (H : List Nat → List Nat) (wl : List Str)
    (e : List Nat) : List Str :=
  (List.range (3 * e.length / 4)).map (fun i =>
    wl.getD (parseBits (((bytesToBinaryString e ++
      entropyChecksumBinStr H e).drop (i * 11)).take 11)) [])

/-- The word list is sorted: strictly increasing in the byte-wise
lexicographic order. -/
def strSorted (wl : List Str) : Prop :=
  List.Pairwise (fun a b => strLt a b = true) wl

/-! ## Lemmas on binary-digit strings -/

theorem parseBits_nil : parseBits [] = 0 := rfl

theorem bitVal_le_one (c : Char) : bitVal c ≤ 1 := by
  unfold bitVal; split <;> omega

theorem bitVal_zero : bitVal '0' = 0 := by decide

theorem bitVal_one : bitVal '1' = 1 := by decide

theorem parseBits_foldl (s : Str) (a : Nat) :
    s.foldl (fun acc c => 2 * acc + bitVal c) a =
      a * 2 ^ s.length + parseBits s := by
  induction s generalizing a with
  | nil => simp [parseBits]
  | cons c t ih =>
    simp only [List.foldl_cons, List.length_cons, parseBits]
    rw [ih, ih (2 * 0 + bitVal c)]
    ring

theorem parseBits_cons (c : Char) (t : Str) :
    parseBits (c :: t) = bitVal c * 2 ^ t.length + parseBits t := by
  show (c :: t).foldl (fun acc c => 2 * acc + bitVal c) 0 = _
  simp only [List.foldl_cons]
  rw [parseBits_foldl]
  ring_nf

theorem parseBits_append (s t : Str) :
    parseBits (s ++ t) = parseBits s * 2 ^ t.length + parseBits t := by
  show (s ++ t).foldl _ 0 = _
  rw [List.foldl_append, parseBits_foldl]
  rfl

theorem parseBits_lt (s : Str) : parseBits s < 2 ^ s.length := by
  induction s with
  | nil => simp [parseBits]
  | cons c t ih =>
    rw [parseBits_cons]
    have h1 : bitVal c * 2 ^ t.length ≤ 2 ^ t.length := by
      have := bitVal_le_one c
      calc bitVal c * 2 ^ t.length ≤ 1 * 2 ^ t.length := by
            exact Nat.mul_le_mul_right _ this
        _ = 2 ^ t.length := Nat.one_mul _
    simp only [List.length_cons, pow_succ]
    omega

theorem parseBits_replicate_zero (k : Nat) :
    parseBits (List.replicate k '0') = 0 := by
  induction k with
  | zero => rfl
  | succ n ih =>
    rw [List.replicate_succ, parseBits_cons, ih]
    simp [bitVal]

theorem parseBits_natBits (n : Nat) : parseBits (natBits n) = n := by
  induction n using Nat.strong_induction_on with
  | _ n ih =>
    match n with
    | 0 => simp [natBits, parseBits]
    | n + 1 =>
      rw [natBits, parseBits_append]
      have h2 : (n + 1) / 2 < n + 1 := Nat.div_lt_self (Nat.succ_pos n) (by omega)
      rw [ih _ h2]
      simp only [List.length_cons, List.length_nil, pow_one]
      have : parseBits [if (n + 1) % 2 = 1 then '1' else '0'] = (n + 1) % 2 := by
        rcases Nat.mod_two_eq_zero_or_one (n + 1) with h | h <;>
          simp [h, parseBits_cons, parseBits_nil, bitVal]
      rw [this]
      omega

theorem natBits_length_le (n w : Nat) (h : n < 2 ^ w) :
    (natBits n).length ≤ w := by
  induction n using Nat.strong_induction_on generalizing w with
  | _ n ih =>
    match n with
    | 0 => simp [natBits]
    | n + 1 =>
      have hw : w ≠ 0 := by
        rintro rfl; simp at h
      obtain ⟨w', rfl⟩ := Nat.exists_eq_succ_of_ne_zero hw
      rw [natBits]
      have h2 : (n + 1) / 2 < n + 1 := Nat.div_lt_self (Nat.succ_pos n) (by omega)
      have hlt : (n + 1) / 2 < 2 ^ w' := by
        rw [pow_succ] at h
        omega
      have := ih _ h2 w' hlt
      simp only [List.length_append, List.length_cons, List.length_nil]
      omega

theorem binRepr_length_le (n w : Nat) (hw : 1 ≤ w) (h : n < 2 ^ w) :
    (binRepr n).length ≤ w := by
  unfold binRepr
  split
  · simpa
  · exact natBits_length_le n w h

theorem padBin_length (n w : Nat) (hw : 1 ≤ w) (h : n < 2 ^ w) :
    (padBin w n).length = w := by
  unfold padBin
  have := binRepr_length_le n w hw h
  simp only [List.length_append, List.length_replicate]
  omega

theorem parseBits_padBin (w n : Nat) : parseBits (padBin w n) = n := by
  unfold padBin
  rw [parseBits_append, parseBits_replicate_zero]
  simp only [Nat.zero_mul, Nat.zero_add]
  unfold binRepr
  split
  · simp [parseBits_cons, parseBits_nil, bitVal, *]
  · exact parseBits_natBits n

theorem natBits_all_bits (n : Nat) : ∀ c ∈ natBits n, isBinDigit c = true := by
  induction n using Nat.strong_induction_on with
  | _ n ih =>
    match n with
    | 0 => simp [natBits]
    | n + 1 =>
      rw [natBits]
      intro c hc
      rcases List.mem_append.mp hc with h | h
      · exact ih _ (Nat.div_lt_self (Nat.succ_pos n) (by omega)) c h
      · simp only [List.mem_singleton] at h
        subst h
        split <;> simp [isBinDigit]

theorem padBin_all_bits (w n : Nat) : ∀ c ∈ padBin w n, isBinDigit c = true := by
  unfold padBin
  intro c hc
  rcases List.mem_append.mp hc with h | h
  · rw [List.eq_of_mem_replicate h]; rfl
  · unfold binRepr at h
    split at h
    · simp only [List.mem_singleton] at h; subst h; rfl
    · exact natBits_all_bits n c h

theorem parseBits_inj (s t : Str) (hs : ∀ c ∈ s, isBinDigit c = true)
    (ht : ∀ c ∈ t, isBinDigit c = true) (hlen : s.length = t.length)
    (h : parseBits s = parseBits t) : s = t := by
  induction s generalizing t with
  | nil =>
    cases t with
    | nil => rfl
    | cons d t2 => simp at hlen
  | cons c s2 ih =>
    cases t with
    | nil => simp at hlen
    | cons d t2 =>
      simp only [List.length_cons, Nat.add_right_cancel_iff] at hlen
      rw [parseBits_cons, parseBits_cons, hlen] at h
      have hs2 := parseBits_lt s2
      have ht2 := parseBits_lt t2
      rw [hlen] at hs2
      have hbv : bitVal c = bitVal d := by
        have h1 := bitVal_le_one c
        have h2 := bitVal_le_one d
        interval_cases hc : bitVal c <;> interval_cases hd : bitVal d <;> omega
      have hpb : parseBits s2 = parseBits t2 := by
        rw [hbv] at h; omega
      have hcd : c = d := by
        have hcb := hs c (List.mem_cons_self c s2)
        have hdb := ht d (List.mem_cons_self d t2)
        simp only [isBinDigit, Bool.or_eq_true, decide_eq_true_eq] at hcb hdb
        unfold bitVal at hbv
        rcases hcb with rfl | rfl <;> rcases hdb with rfl | rfl <;>
          simp_all
      rw [hcd, ih t2 (fun x hx => hs x (List.mem_cons_of_mem c hx))
        (fun x hx => ht x (List.mem_cons_of_mem d hx)) hlen hpb]

theorem padBin_parseBits (s : Str) (hne : s ≠ [])
    (hb : ∀ c ∈ s, isBinDigit c = true) :
    padBin s.length (parseBits s) = s := by
  have h1 : 1 ≤ s.length := by
    cases s with
    | nil => exact absurd rfl hne
    | cons c t => simp
  apply parseBits_inj
  · exact padBin_all_bits _ _
  · exact hb
  · exact padBin_length _ _ h1 (parseBits_lt s)
  · exact parseBits_padBin _ _

/-- `strconv.ParseInt(s, 2, 16)` on a nonempty all-binary-digit string of
at most 15 characters returns the digits' value with no error. -/
theorem parseIntB2_bits (s : Str) (hne : s ≠ [])
    (hb : ∀ c ∈ s, isBinDigit c = true) (hlen : s.length ≤ 15) :
    parseIntB2 s = ((parseBits s : Int), none) := by
  have hval : parseBits s < 32768 := by
    have h1 := parseBits_lt s
    have h2 : (2 : Nat) ^ s.length ≤ 2 ^ 15 := Nat.pow_le_pow_right (by omega) hlen
    calc parseBits s < 2 ^ s.length := h1
      _ ≤ 2 ^ 15 := h2
      _ = 32768 := by norm_num
  have hhead : ∀ c ∈ s, c ≠ '+' ∧ c ≠ '-' := by
    intro c hc
    have := hb c hc
    simp only [isBinDigit, Bool.or_eq_true, decide_eq_true_eq] at this
    rcases this with rfl | rfl <;> exact ⟨by decide, by decide⟩
  have hall : s.all isBinDigit = true := List.all_eq_true.mpr hb
  unfold parseIntB2
  cases s with
  | nil => exact absurd rfl hne
  | cons c cs =>
    have hc := hhead c (List.mem_cons_self c cs)
    have hplus : (some c = some '+') = False := by
      simp only [Option.some.injEq, eq_iff_iff, iff_false]
      exact hc.1
    have hminus : (some c = some '-') = False := by
      simp only [Option.some.injEq, eq_iff_iff, iff_false]
      exact hc.2
    simp only [List.head?_cons, hplus, hminus, or_self, if_false,
      decide_False, List.cons_ne_nil, hall, Bool.not_true, false_or,
      Bool.false_eq_true, if_false, not_true_eq_false, or_false]
    norm_num
    intro hcon
    exfalso
    rcases hcon with hcon | hcon <;> omega

/-! ## Lemmas on `bytesToBinaryString` and `binaryStringToBytes` -/

theorem bytesToBinaryString_nil : bytesToBinaryString [] = [] := rfl

theorem bytesToBinaryString_cons (b : Nat) (bs : List Nat) :
    bytesToBinaryString (b :: bs) = padBin 8 b ++ bytesToBinaryString bs := by
  simp [bytesToBinaryString]

theorem bytesToBinaryString_length (bs : List Nat)
    (h : ∀ b ∈ bs, b < 256) : (bytesToBinaryString bs).length = 8 * bs.length := by
  induction bs with
  | nil => rfl
  | cons b t ih =>
    rw [bytesToBinaryString_cons]
    have hb : b < 256 := h b (List.mem_cons_self b t)
    have h8 : (padBin 8 b).length = 8 :=
      padBin_length b 8 (by omega) (by norm_num; omega)
    simp only [List.length_append, h8, List.length_cons,
      ih (fun x hx => h x (List.mem_cons_of_mem b hx))]
    ring

theorem bytesToBinaryString_all_bits (bs : List Nat) :
    ∀ c ∈ bytesToBinaryString bs, isBinDigit c = true := by
  intro c hc
  unfold bytesToBinaryString at hc
  rw [List.mem_flatten] at hc
  obtain ⟨l, hl, hcl⟩ := hc
  rw [List.mem_map] at hl
  obtain ⟨b, _, rfl⟩ := hl
  exact padBin_all_bits 8 b c hcl

/-- One step of the byte-conversion loop on a valid 8-digit group. -/
theorem chunksToBytes_step (s t : Str) (hlen : s.length = 8)
    (hb : ∀ c ∈ s, isBinDigit c = true) :
    chunksToBytes (s ++ t) =
      match chunksToBytes t with
      | .error e => .error e
      | .ok rest => .ok (parseBits s :: rest) := by
  cases s with
  | nil => simp at hlen
  | cons c cs =>
    have htake : (c :: (cs ++ t)).take 8 = c :: cs := by
      rw [← List.cons_append]
      exact List.take_left' hlen
    have h7 : cs.length = 7 := by simpa using hlen
    have hdrop : (cs ++ t).drop 7 = t := List.drop_left' h7
    rw [chunksToBytes.eq_def]
    simp only [List.cons_append, htake, hdrop]
    rw [parseIntB2_bits (c :: cs) (List.cons_ne_nil c cs) hb (by rw [hlen]; omega)]
    have hp : parseBits (c :: cs) < 256 := by
      have h1 := parseBits_lt (c :: cs)
      rw [hlen] at h1
      norm_num at h1
      exact h1
    have hmod : ((parseBits (c :: cs) : Int) % 256).toNat = parseBits (c :: cs) := by
      have hp2 : ((parseBits (c :: cs) : Int)) < 256 := by exact_mod_cast hp
      omega
    simp only [hmod]

/-- First round-trip direction: converting bytes to a binary string and
back recovers the bytes. -/
theorem binaryStringToBytes_bytesToBinaryString (bs : List Nat)
    (h : ∀ b ∈ bs, b < 256) :
    binaryStringToBytes (bytesToBinaryString bs) = .ok bs := by
  unfold binaryStringToBytes
  rw [bytesToBinaryString_length bs h]
  simp only [Nat.mul_mod_right, ne_eq, not_true_eq_false, if_false]
  induction bs with
  | nil => rw [bytesToBinaryString_nil, chunksToBytes.eq_def]
  | cons b t ih =>
    rw [bytesToBinaryString_cons]
    have hb : b < 256 := h b (List.mem_cons_self b t)
    have h8 : (padBin 8 b).length = 8 :=
      padBin_length b 8 (by omega) (by norm_num; omega)
    rw [chunksToBytes_step _ _ h8 (padBin_all_bits 8 b)]
    rw [ih (fun x hx => h x (List.mem_cons_of_mem b hx))]
    rw [parseBits_padBin]

/-- Second round-trip direction, on the chunk loop: an all-binary-digit
string whose length is a multiple of 8 converts to bytes that render back
to the same string. -/
theorem chunksToBytes_roundtrip (n : Nat) : ∀ s : Str, s.length = 8 * n →
    (∀ c ∈ s, isBinDigit c = true) →
    ∃ bs, chunksToBytes s = .ok bs ∧ bytesToBinaryString bs = s ∧
      (∀ b ∈ bs, b < 256) := by
  induction n with
  | zero =>
    intro s hlen _
    have : s = [] := List.eq_nil_of_length_eq_zero (by omega)
    subst this
    refine ⟨[], ?_, rfl, by simp⟩
    rw [chunksToBytes.eq_def]
  | succ m ih =>
    intro s hlen hb
    have hsl : 8 ≤ s.length := by omega
    have hsplit : s.take 8 ++ s.drop 8 = s := List.take_append_drop 8 s
    have htl : (s.take 8).length = 8 := by
      rw [List.length_take]
      omega
    have htb : ∀ c ∈ s.take 8, isBinDigit c = true :=
      fun c hc => hb c (List.mem_of_mem_take hc)
    have hdb : ∀ c ∈ s.drop 8, isBinDigit c = true :=
      fun c hc => hb c (List.mem_of_mem_drop hc)
    have hdl : (s.drop 8).length = 8 * m := by
      rw [List.length_drop]
      omega
    obtain ⟨bs, hok, hback, hlt⟩ := ih (s.drop 8) hdl hdb
    have hstep := chunksToBytes_step (s.take 8) (s.drop 8) htl htb
    rw [hsplit] at hstep
    rw [hstep, hok]
    have hplt : parseBits (s.take 8) < 256 := by
      have h1 := parseBits_lt (s.take 8)
      rw [htl] at h1
      norm_num at h1
      exact h1
    refine ⟨parseBits (s.take 8) :: bs, rfl, ?_, ?_⟩
    · rw [bytesToBinaryString_cons, hback]
      have : padBin 8 (parseBits (s.take 8)) = s.take 8 := by
        have := padBin_parseBits (s.take 8) (by
          intro hcon
          rw [hcon] at htl
          simp at htl) htb
        rw [htl] at this
        exact this
      rw [this, hsplit]
    · intro b hbm
      rcases List.mem_cons.mp hbm with rfl | hbm2
      · exact hplt
      · exact hlt b hbm2

/-! ## Lemmas on the lexicographic order and the binary search -/

theorem strLt_irrefl (s : Str) : strLt s s = false := by
  induction s with
  | nil => rfl
  | cons c t ih =>
    rw [strLt]
    simp [ih]

theorem strLt_asymm (s t : Str) (h : strLt s t = true) : strLt t s = false := by
  induction s generalizing t with
  | nil =>
    cases t with
    | nil => rfl
    | cons d t2 => rfl
  | cons c s2 ih =>
    cases t with
    | nil => exact absurd h (by rw [strLt]; simp)
    | cons d t2 =>
      rw [strLt] at h ⊢
      by_cases h1 : c.toNat < d.toNat
      · have h2 : ¬ d.toNat < c.toNat := by omega
        have h3 : ¬ d.toNat = c.toNat := by omega
        simp [h2, h3]
      · by_cases h2 : c.toNat = d.toNat
        · rw [if_neg h1, if_pos h2] at h
          have h3 : ¬ d.toNat < c.toNat := by omega
          have h4 : d.toNat = c.toNat := by omega
          rw [if_neg h3, if_pos h4]
          exact ih t2 h
        · rw [if_neg h1, if_neg h2] at h
          exact absurd h (by simp)

/-- Value order on equal-length binary-digit strings implies
lexicographic order. -/
theorem strLt_of_parseBits_lt (s t : Str) (hs : ∀ c ∈ s, isBinDigit c = true)
    (ht : ∀ c ∈ t, isBinDigit c = true) (hlen : s.length = t.length)
    (h : parseBits s < parseBits t) : strLt s t = true := by
  induction s generalizing t with
  | nil =>
    cases t with
    | nil => simp [parseBits] at h
    | cons d t2 => simp at hlen
  | cons c s2 ih =>
    cases t with
    | nil => simp at hlen
    | cons d t2 =>
      simp only [List.length_cons, Nat.add_right_cancel_iff] at hlen
      rw [parseBits_cons, parseBits_cons, hlen] at h
      have hcb := hs c (List.mem_cons_self c s2)
      have hdb := ht d (List.mem_cons_self d t2)
      have hs2 := parseBits_lt s2
      have ht2 := parseBits_lt t2
      rw [hlen] at hs2
      simp only [isBinDigit, Bool.or_eq_true, decide_eq_true_eq] at hcb hdb
      rw [strLt]
      rcases hcb with rfl | rfl <;> rcases hdb with rfl | rfl
      · -- both '0'
        rw [bitVal_zero] at h
        simp only [lt_self_iff_false, if_false, if_pos rfl]
        exact ih t2 (fun x hx => hs x (List.mem_cons_of_mem _ hx))
          (fun x hx => ht x (List.mem_cons_of_mem _ hx)) hlen (by omega)
      · -- '0' < '1'
        simp
      · -- '1' vs '0': impossible
        exfalso
        rw [bitVal_zero, bitVal_one] at h
        have := parseBits_lt s2
        omega
      · -- both '1'
        rw [bitVal_one] at h
        simp only [lt_self_iff_false, if_false, if_pos rfl]
        exact ih t2 (fun x hx => hs x (List.mem_cons_of_mem _ hx))
          (fun x hx => ht x (List.mem_cons_of_mem _ hx)) hlen (by omega)

/-- The binary-search loop stays within its bounds. -/
theorem searchLoop_bounds (pred : Nat → Bool) (i j : Nat) (hij : i ≤ j) :
    i ≤ searchLoop pred i j ∧ searchLoop pred i j ≤ j := by
  suffices H : ∀ n i j, i ≤ j → j - i = n →
      i ≤ searchLoop pred i j ∧ searchLoop pred i j ≤ j by
    exact H (j - i) i j hij rfl
  intro n
  induction n using Nat.strong_induction_on with
  | _ n ihn =>
    intro i j hij hn
    rw [searchLoop]
    split
    · rename_i hlt
      have hmi : i ≤ (i + j) / 2 := by omega
      have hmj : (i + j) / 2 < j := by omega
      split
      · have := ihn ((i + j) / 2 - i) (by omega) i ((i + j) / 2) hmi rfl
        omega
      · have := ihn (j - ((i + j) / 2 + 1)) (by omega) ((i + j) / 2 + 1) j
          (by omega) rfl
        omega
    · omega

/-- When the predicate is `false` strictly below `t` and `true` from `t`
up, the binary-search loop finds exactly `t`. -/
theorem searchLoop_eq (pred : Nat → Bool) (i j t : Nat) (hit : i ≤ t)
    (htj : t ≤ j) (hlow : ∀ k, i ≤ k → k < t → pred k = false)
    (hhigh : ∀ k, t ≤ k → k < j → pred k = true) :
    searchLoop pred i j = t := by
  suffices H : ∀ n i j, i ≤ t → t ≤ j → (∀ k, i ≤ k → k < t → pred k = false) →
      (∀ k, t ≤ k → k < j → pred k = true) → j - i = n →
      searchLoop pred i j = t by
    exact H (j - i) i j hit htj hlow hhigh rfl
  clear hit htj hlow hhigh i j
  intro n
  induction n using Nat.strong_induction_on with
  | _ n ihn =>
    intro i j hit htj hlow hhigh hn
    rw [searchLoop]
    split
    · rename_i hlt
      have hmi : i ≤ (i + j) / 2 := by omega
      have hmj : (i + j) / 2 < j := by omega
      by_cases hp : pred ((i + j) / 2) = true
      · rw [if_pos hp]
        have hmt : t ≤ (i + j) / 2 := by
          by_contra hcon
          rw [hlow ((i + j) / 2) hmi (by omega)] at hp
          simp at hp
        exact ihn ((i + j) / 2 - i) (by omega) i ((i + j) / 2) hit hmt hlow
          (fun k hk1 hk2 => hhigh k hk1 (by omega)) rfl
      · rw [if_neg hp]
        have hmt : (i + j) / 2 < t := by
          by_contra hcon
          exact hp (hhigh ((i + j) / 2) (by omega) hmj)
        exact ihn (j - ((i + j) / 2 + 1)) (by omega) ((i + j) / 2 + 1) j
          (by omega) htj (fun k hk1 hk2 => hlow k (by omega) hk2) hhigh rfl
    · omega

theorem searchStrings_le (a : List Str) (x : Str) :
    searchStrings a x ≤ a.length := by
  unfold searchStrings
  exact (searchLoop_bounds _ 0 a.length (Nat.zero_le _)).2

/-- On a sorted word list, searching for the word at index `i` finds
index `i`. -/
theorem searchStrings_get (wl : List Str) (hsort : strSorted wl)
    (i : Nat) (hi : i < wl.length) :
    searchStrings wl (wl.get ⟨i, hi⟩) = i := by
  unfold searchStrings
  apply searchLoop_eq _ 0 wl.length i (Nat.zero_le i) (le_of_lt hi)
  · intro k hk0 hki
    have hk : k < wl.length := lt_trans hki hi
    rw [List.getD_eq_getElem wl [] hk]
    have hlt := (List.pairwise_iff_get.mp hsort) ⟨k, hk⟩ ⟨i, hi⟩ hki
    simp only [List.get_eq_getElem] at hlt
    simp [hlt]
  · intro k hik hk
    rw [List.getD_eq_getElem wl [] hk]
    rcases Nat.eq_or_lt_of_le hik with heq | hlt
    · subst heq
      simp [List.get_eq_getElem, strLt_irrefl]
    · have h1 := (List.pairwise_iff_get.mp hsort) ⟨i, hi⟩ ⟨k, hk⟩ hlt
      simp only [List.get_eq_getElem] at h1
      have h2 := strLt_asymm _ _ h1
      simp only [List.get_eq_getElem]
      simp [h2]

/-- On a sorted word list, `stringBinarySearch` returns the index of a
present word. -/
theorem stringBinarySearch_get (wl : List Str) (hsort : strSorted wl)
    (i : Nat) (hi : i < wl.length) :
    stringBinarySearch wl (wl.get ⟨i, hi⟩) = (i : Int) := by
  unfold stringBinarySearch
  rw [searchStrings_get wl hsort i hi]
  rw [if_pos]
  exact ⟨Nat.ne_of_lt hi, by rw [List.getD_eq_getElem wl [] hi]; simp⟩

/-- `stringBinarySearch` returns `-1` on any word not present in the
list (sorted or not). -/
theorem stringBinarySearch_not_mem (wl : List Str) (x : Str)
    (hx : x ∉ wl) : stringBinarySearch wl x = -1 := by
  unfold stringBinarySearch
  by_cases h : searchStrings wl x = wl.length
  · rw [if_neg]
    intro hcon
    exact hcon.1 h
  · have hlt : searchStrings wl x < wl.length :=
      lt_of_le_of_ne (searchStrings_le wl x) h
    rw [if_neg]
    intro hcon
    apply hx
    rw [← hcon.2, List.getD_eq_getElem wl [] hlt]
    exact List.getElem_mem hlt

/-- A successful `stringBinarySearch` returns an in-range index whose
entry is the word searched for. -/
theorem stringBinarySearch_found (wl : List Str) (x : Str)
    (h : stringBinarySearch wl x ≠ -1) :
    ∃ hi : searchStrings wl x < wl.length,
      wl.get ⟨searchStrings wl x, hi⟩ = x ∧
      stringBinarySearch wl x = (searchStrings wl x : Int) := by
  unfold stringBinarySearch at h ⊢
  split
  · rename_i hcond
    have hlt : searchStrings wl x < wl.length :=
      lt_of_le_of_ne (searchStrings_le wl x) hcond.1
    refine ⟨hlt, ?_, rfl⟩
    rw [List.get_eq_getElem, ← List.getD_eq_getElem wl [] hlt]
    exact hcond.2
  · rename_i hcond
    rw [if_neg hcond] at h
    exact absurd rfl h

/-! ## Lemmas on splitting and joining words -/

theorem splitOnSpace_no_space (w : Str) (h : ' ' ∉ w) :
    splitOnSpace w = [w] := by
  induction w with
  | nil => rfl
  | cons c cs ih =>
    rw [splitOnSpace]
    have hc : c ≠ ' ' := fun hcon => h (hcon ▸ List.mem_cons_self c cs)
    rw [if_neg hc, ih (fun hcon => h (List.mem_cons_of_mem c hcon))]

theorem splitOnSpace_word_append (w t : Str) (h : ' ' ∉ w) :
    splitOnSpace (w ++ ' ' :: t) = w :: splitOnSpace t := by
  induction w with
  | nil =>
    rw [List.nil_append, splitOnSpace, if_pos rfl]
  | cons c cs ih =>
    have hc : c ≠ ' ' := fun hcon => h (hcon ▸ List.mem_cons_self c cs)
    rw [List.cons_append, splitOnSpace, if_neg hc,
      ih (fun hcon => h (List.mem_cons_of_mem c hcon))]

/-- Splitting on spaces is a left inverse of joining with spaces, for a
nonempty list of space-free words. -/
theorem splitOnSpace_joinWords (ws : List Str) (hne : ws ≠ [])
    (h : ∀ w ∈ ws, ' ' ∉ w) : splitOnSpace (joinWords ws) = ws := by
  induction ws with
  | nil => exact absurd rfl hne
  | cons w vs ih =>
    cases vs with
    | nil =>
      rw [joinWords]
      exact splitOnSpace_no_space w (h w (List.mem_cons_self w []))
    | cons v us =>
      rw [joinWords, splitOnSpace_word_append w _ (h w (List.mem_cons_self w _)),
        ih (List.cons_ne_nil v us) (fun x hx => h x (List.mem_cons_of_mem w hx))]

/-! ## Lemmas on the word-to-binary loop of `getBinaryStrings` -/

/-- The loop fails with `ErrInvalidWord` as soon as any word's search
fails. -/
theorem wordsToBin_error (wl : List Str) (ws : List Str)
    (h : ∃ w ∈ ws, stringBinarySearch wl w = -1) :
    wordsToBin wl ws = .error .invalidWord := by
  induction ws with
  | nil => simp at h
  | cons w vs ih =>
    rw [wordsToBin]
    by_cases hw : stringBinarySearch wl w = -1
    · rw [if_pos hw]
    · rw [if_neg hw]
      obtain ⟨x, hx, hxs⟩ := h
      rcases List.mem_cons.mp hx with rfl | hx2
      · exact absurd hxs hw
      · rw [ih ⟨x, hx2, hxs⟩]

/-- A successful loop run produces the concatenation of the 11-digit
renderings of in-range word indices, one per word. -/
theorem wordsToBin_ok (wl : List Str) (ws : List Str) (s : Str)
    (h : wordsToBin wl ws = .ok s) :
    ∃ idxs : List Nat, idxs.length = ws.length ∧
      (∀ k ∈ idxs, k < wl.length) ∧
      s = (idxs.map (padBin 11)).flatten := by
  induction ws generalizing s with
  | nil =>
    rw [wordsToBin] at h
    refine ⟨[], rfl, by simp, ?_⟩
    cases h
    rfl
  | cons w vs ih =>
    rw [wordsToBin] at h
    by_cases hw : stringBinarySearch wl w = -1
    · rw [if_pos hw] at h
      cases h
    · rw [if_neg hw] at h
      obtain ⟨hlt, hget, heq⟩ := stringBinarySearch_found wl w hw
      rcases hrec : wordsToBin wl vs with e | rest
      · rw [hrec] at h
        cases h
      · rw [hrec] at h
        obtain ⟨idxs, hlen, hrng, hflat⟩ := ih rest hrec
        cases h
        refine ⟨searchStrings wl w :: idxs, by simp [hlen], ?_, ?_⟩
        · intro k hk
          rcases List.mem_cons.mp hk with rfl | hk2
          · exact hlt
          · exact hrng k hk2
        · rw [heq]
          simp [hflat]

/-- On a sorted word list the loop succeeds on any list of present
words, rendering each word's index. -/
theorem wordsToBin_ok_of_mem (wl : List Str) (hsort : strSorted wl)
    (ws : List Str) (hmem : ∀ w ∈ ws, w ∈ wl) :
    wordsToBin wl ws =
      .ok ((ws.map (fun w => padBin 11 (stringBinarySearch wl w).toNat)).flatten) := by
  induction ws with
  | nil => rfl
  | cons w vs ih =>
    rw [wordsToBin]
    obtain ⟨⟨i, hi⟩, hget⟩ := List.mem_iff_get.mp (hmem w (List.mem_cons_self w vs))
    have hfind : stringBinarySearch wl w = (i : Int) := by
      rw [← hget]
      exact stringBinarySearch_get wl hsort i hi
    have hne : stringBinarySearch wl w ≠ -1 := by
      rw [hfind]
      omega
    rw [if_neg hne, ih (fun x hx => hmem x (List.mem_cons_of_mem w hx))]
    simp

/-- Cutting a string of length `11 * L` into `L` consecutive 11-character
groups and flattening them back recovers the string. -/
theorem flatten_groups (L : Nat) : ∀ s : Str, s.length = 11 * L →
    ((List.range L).map (fun i => (s.drop (i * 11)).take 11)).flatten = s := by
  induction L with
  | zero =>
    intro s h
    have : s = [] := List.eq_nil_of_length_eq_zero (by omega)
    subst this
    rfl
  | succ m ih =>
    intro s h
    rw [List.range_succ_eq_map]
    simp only [List.map_cons, List.map_map, List.flatten_cons, Nat.zero_mul,
      List.drop_zero]
    have hmap : (List.range m).map
        ((fun i => (s.drop (i * 11)).take 11) ∘ Nat.succ) =
        (List.range m).map (fun i => ((s.drop 11).drop (i * 11)).take 11) := by
      apply List.map_congr_left
      intro i _
      simp only [Function.comp_apply]
      rw [List.drop_drop]
      congr 2
      omega
    rw [hmap, ih (s.drop 11) (by rw [List.length_drop]; omega)]
    exact List.take_append_drop 11 s

/-- Structure of the encoding: under the wordlist and hash contracts,
`MnemonicFromEntropy` succeeds on valid-length entropy and its words are
the wordlist entries selected by the consecutive 11-bit groups of
entropy-plus-checksum digits. -/
theorem MnemonicFromEntropy_words (H : List Nat → List Nat) (wl : List Str)
    (e : List Nat)
    (hlen : e.length = 16 ∨ e.length = 20 ∨ e.length = 24 ∨ e.length = 28 ∨
      e.length = 32)
    (hbytes : ∀ b ∈ e, b < 256)
    (hH32 : (H e).length = 32) (hHb : ∀ b ∈ H e, b < 256) :
    MnemonicFromEntropy H wl e = .ok ⟨joinWords (encodeWords H wl e)⟩ := by
  unfold encodeWords
  have hval : validateEntropyBitLen (e.length * 8) = none := by
    unfold validateEntropyBitLen
    rw [if_pos]
    rcases hlen with h | h | h | h | h <;> rw [h] <;> norm_num
  have hchklen : (entropyChecksumBinStr H e).length = e.length / 4 := by
    unfold entropyChecksumBinStr
    rw [List.length_take, bytesToBinaryString_length (H e) hHb, hH32]
    rcases hlen with h | h | h | h | h <;> rw [h] <;> norm_num
  have hTlen : (bytesToBinaryString e ++ entropyChecksumBinStr H e).length =
      8 * e.length + e.length / 4 := by
    rw [List.length_append, bytesToBinaryString_length e hbytes, hchklen]
  have hdiv : (8 * e.length + e.length / 4) / 11 = 3 * e.length / 4 := by
    rcases hlen with h | h | h | h | h <;> rw [h] <;> norm_num
  unfold MnemonicFromEntropy
  rw [hval]
  simp only [hTlen, hdiv]
  have hwords : List.map (fun i =>
      wl.getD (parseIntB2 (List.take 11 (List.drop (i * 11)
        (bytesToBinaryString e ++ entropyChecksumBinStr H e)))).1.toNat [])
      (List.range (3 * e.length / 4)) =
      List.map (fun i =>
      wl.getD (parseBits (List.take 11 (List.drop (i * 11)
        (bytesToBinaryString e ++ entropyChecksumBinStr H e)))) [])
      (List.range (3 * e.length / 4)) := by
    apply List.map_congr_left
    intro i hi
    have hiL : i < 3 * e.length / 4 := List.mem_range.mp hi
    have hgl : (((bytesToBinaryString e ++ entropyChecksumBinStr H e).drop
        (i * 11)).take 11).length = 11 := by
      rw [List.length_take, List.length_drop, hTlen]
      rcases hlen with h | h | h | h | h <;> rw [h] <;> rw [h] at hiL <;> omega
    have hgb : ∀ c ∈ ((bytesToBinaryString e ++ entropyChecksumBinStr H e).drop
        (i * 11)).take 11, isBinDigit c = true := by
      intro c hc
      have hc2 := List.mem_of_mem_drop (List.mem_of_mem_take hc)
      rcases List.mem_append.mp hc2 with h | h
      · exact bytesToBinaryString_all_bits e c h
      · unfold entropyChecksumBinStr at h
        exact bytesToBinaryString_all_bits (H e) c (List.mem_of_mem_take h)
    have hgne : ((bytesToBinaryString e ++ entropyChecksumBinStr H e).drop
        (i * 11)).take 11 ≠ [] := by
      intro hcon
      rw [hcon] at hgl
      simp at hgl
    rw [parseIntB2_bits _ hgne hgb (by rw [hgl]; omega)]
    simp
  rw [hwords]

theorem checksum_length (H : List Nat → List Nat) (e : List Nat)
    (hlen : e.length = 16 ∨ e.length = 20 ∨ e.length = 24 ∨ e.length = 28 ∨
      e.length = 32)
    (hH32 : (H e).length = 32) (hHb : ∀ b ∈ H e, b < 256) :
    (entropyChecksumBinStr H e).length = e.length / 4 := by
  unfold entropyChecksumBinStr
  rw [List.length_take, bytesToBinaryString_length (H e) hHb, hH32]
  rcases hlen with h | h | h | h | h <;> rw [h] <;> norm_num

theorem combined_length (H : List Nat → List Nat) (e : List Nat)
    (hlen : e.length = 16 ∨ e.length = 20 ∨ e.length = 24 ∨ e.length = 28 ∨
      e.length = 32)
    (hbytes : ∀ b ∈ e, b < 256)
    (hH32 : (H e).length = 32) (hHb : ∀ b ∈ H e, b < 256) :
    (bytesToBinaryString e ++ entropyChecksumBinStr H e).length =
      8 * e.length + e.length / 4 := by
  rw [List.length_append, bytesToBinaryString_length e hbytes,
    checksum_length H e hlen hH32 hHb]

theorem group_length (H : List Nat → List Nat) (e : List Nat)
    (hlen : e.length = 16 ∨ e.length = 20 ∨ e.length = 24 ∨ e.length = 28 ∨
      e.length = 32)
    (hbytes : ∀ b ∈ e, b < 256)
    (hH32 : (H e).length = 32) (hHb : ∀ b ∈ H e, b < 256)
    (i : Nat) (hiL : i < 3 * e.length / 4) :
    (((bytesToBinaryString e ++ entropyChecksumBinStr H e).drop
      (i * 11)).take 11).length = 11 := by
  rw [List.length_take, List.length_drop,
    combined_length H e hlen hbytes hH32 hHb]
  rcases hlen with h | h | h | h | h <;> rw [h] <;> rw [h] at hiL <;> omega

theorem group_bits (H : List Nat → List Nat) (e : List Nat) (i : Nat) :
    ∀ c ∈ ((bytesToBinaryString e ++ entropyChecksumBinStr H e).drop
      (i * 11)).take 11, isBinDigit c = true := by
  intro c hc
  have hc2 := List.mem_of_mem_drop (List.mem_of_mem_take hc)
  rcases List.mem_append.mp hc2 with h | h
  · exact bytesToBinaryString_all_bits e c h
  · unfold entropyChecksumBinStr at h
    exact bytesToBinaryString_all_bits (H e) c (List.mem_of_mem_take h)

theorem group_lt (H : List Nat → List Nat) (e : List Nat)
    (hlen : e.length = 16 ∨ e.length = 20 ∨ e.length = 24 ∨ e.length = 28 ∨
      e.length = 32)
    (hbytes : ∀ b ∈ e, b < 256)
    (hH32 : (H e).length = 32) (hHb : ∀ b ∈ H e, b < 256)
    (i : Nat) (hiL : i < 3 * e.length / 4) :
    parseBits (((bytesToBinaryString e ++ entropyChecksumBinStr H e).drop
      (i * 11)).take 11) < 2048 := by
  have h1 := parseBits_lt (((bytesToBinaryString e ++
    entropyChecksumBinStr H e).drop (i * 11)).take 11)
  rw [group_length H e hlen hbytes hH32 hHb i hiL] at h1
  norm_num at h1
  exact h1

theorem encodeWords_mem (H : List Nat → List Nat) (wl : List Str)
    (hwl : wl.length = 2048) (e : List Nat)
    (hlen : e.length = 16 ∨ e.length = 20 ∨ e.length = 24 ∨ e.length = 28 ∨
      e.length = 32)
    (hbytes : ∀ b ∈ e, b < 256)
    (hH32 : (H e).length = 32) (hHb : ∀ b ∈ H e, b < 256) :
    ∀ w ∈ encodeWords H wl e, w ∈ wl := by
  intro w hw
  unfold encodeWords at hw
  rw [List.mem_map] at hw
  obtain ⟨i, hi, rfl⟩ := hw
  have hlt : parseBits (((bytesToBinaryString e ++
      entropyChecksumBinStr H e).drop (i * 11)).take 11) < wl.length := by
    rw [hwl]
    exact group_lt H e hlen hbytes hH32 hHb i (List.mem_range.mp hi)
  rw [List.getD_eq_getElem wl [] hlt]
  exact List.getElem_mem hlt

/-- Decoding the encoded word sequence recovers the entropy digits and
the checksum digits exactly. -/
theorem getBinaryStrings_encode (H : List Nat → List Nat) (wl : List Str)
    (hwl : wl.length = 2048) (hsort : strSorted wl)
    (hsp : ∀ w ∈ wl, ' ' ∉ w) (e : List Nat)
    (hlen : e.length = 16 ∨ e.length = 20 ∨ e.length = 24 ∨ e.length = 28 ∨
      e.length = 32)
    (hbytes : ∀ b ∈ e, b < 256)
    (hH32 : (H e).length = 32) (hHb : ∀ b ∈ H e, b < 256) :
    getBinaryStrings wl ⟨joinWords (encodeWords H wl e)⟩ =
      .ok (bytesToBinaryString e, entropyChecksumBinStr H e) := by
  have hmem := encodeWords_mem H wl hwl e hlen hbytes hH32 hHb
  have hne : encodeWords H wl e ≠ [] := by
    unfold encodeWords
    simp only [ne_eq, List.map_eq_nil_iff, List.range_eq_nil]
    rcases hlen with h | h | h | h | h <;> rw [h] <;> norm_num
  have hsplit : splitOnSpace (joinWords (encodeWords H wl e)) =
      encodeWords H wl e :=
    splitOnSpace_joinWords _ hne (fun w hw => hsp w (hmem w hw))
  have hwlen : (encodeWords H wl e).length = 3 * e.length / 4 := by
    unfold encodeWords
    simp
  have hvn : validateWordsNum (encodeWords H wl e).length = none := by
    rw [hwlen]
    unfold validateWordsNum
    rw [if_pos]
    rcases hlen with h | h | h | h | h <;> rw [h] <;> norm_num
  have hw2b : wordsToBin wl (encodeWords H wl e) =
      .ok (bytesToBinaryString e ++ entropyChecksumBinStr H e) := by
    rw [wordsToBin_ok_of_mem wl hsort _ hmem]
    congr 1
    unfold encodeWords
    rw [List.map_map]
    have hptw : (List.range (3 * e.length / 4)).map
        ((fun w => padBin 11 (stringBinarySearch wl w).toNat) ∘ fun i =>
          wl.getD (parseBits (((bytesToBinaryString e ++
            entropyChecksumBinStr H e).drop (i * 11)).take 11)) []) =
        (List.range (3 * e.length / 4)).map (fun i =>
          ((bytesToBinaryString e ++ entropyChecksumBinStr H e).drop
            (i * 11)).take 11) := by
      apply List.map_congr_left
      intro i hi
      have hiL := List.mem_range.mp hi
      have hplt : parseBits (((bytesToBinaryString e ++
          entropyChecksumBinStr H e).drop (i * 11)).take 11) < wl.length := by
        rw [hwl]
        exact group_lt H e hlen hbytes hH32 hHb i hiL
      simp only [Function.comp_apply]
      have hgd : wl.getD (parseBits (((bytesToBinaryString e ++
          entropyChecksumBinStr H e).drop (i * 11)).take 11)) [] =
          wl.get ⟨parseBits (((bytesToBinaryString e ++
            entropyChecksumBinStr H e).drop (i * 11)).take 11), hplt⟩ := by
        rw [List.getD_eq_getElem wl [] hplt, List.get_eq_getElem]
      rw [hgd, stringBinarySearch_get wl hsort _ hplt]
      rw [Int.toNat_ofNat]
      have hg11 := group_length H e hlen hbytes hH32 hHb i hiL
      have hgood := padBin_parseBits (((bytesToBinaryString e ++
          entropyChecksumBinStr H e).drop (i * 11)).take 11) (by
        intro hcon
        rw [hcon] at hg11
        simp at hg11) (group_bits H e i)
      rw [hg11] at hgood
      exact hgood
    rw [hptw]
    apply flatten_groups
    rw [combined_length H e hlen hbytes hH32 hHb]
    rcases hlen with h | h | h | h | h <;> rw [h] <;> norm_num
  simp only [getBinaryStrings, hsplit, hvn, hw2b]
  have hT : (bytesToBinaryString e ++ entropyChecksumBinStr H e).length -
      (bytesToBinaryString e ++ entropyChecksumBinStr H e).length / 33 =
      8 * e.length := by
    rw [combined_length H e hlen hbytes hH32 hHb]
    rcases hlen with h | h | h | h | h <;> rw [h] <;> norm_num
  rw [hT]
  have hblen : (bytesToBinaryString e).length = 8 * e.length :=
    bytesToBinaryString_length e hbytes
  rw [List.take_left' hblen, List.drop_left' hblen]

/-! ## Facts about the stand-in word list -/

theorem wordsListStd_length : wordsListStd.length = 2048 := by
  unfold wordsListStd
  simp

theorem wordsListStd_sorted : strSorted wordsListStd := by
  unfold strSorted wordsListStd
  rw [List.pairwise_iff_get]
  intro i j hij
  simp only [List.get_eq_getElem, List.getElem_map, List.getElem_range]
  have hi2 : (i : Nat) < 2048 := by
    have := i.isLt
    simpa using this
  have hj2 : (j : Nat) < 2048 := by
    have := j.isLt
    simpa using this
  apply strLt_of_parseBits_lt
  · exact padBin_all_bits _ _
  · exact padBin_all_bits _ _
  · rw [padBin_length _ 11 (by omega) (by norm_num; omega),
      padBin_length _ 11 (by omega) (by norm_num; omega)]
  · rw [parseBits_padBin, parseBits_padBin]
    exact hij

theorem wordsListStd_no_space : ∀ w ∈ wordsListStd, ' ' ∉ w := by
  intro w hw
  unfold wordsListStd at hw
  rw [List.mem_map] at hw
  obtain ⟨i, _, rfl⟩ := hw
  intro hcon
  have := padBin_all_bits 11 i ' ' hcon
  simp [isBinDigit] at this

theorem nil_not_mem_wordsListStd : [] ∉ wordsListStd := by
  intro hcon
  unfold wordsListStd at hcon
  rw [List.mem_map] at hcon
  obtain ⟨i, hi, heq⟩ := hcon
  have hl : (padBin 11 i).length = 11 :=
    padBin_length i 11 (by omega) (by
      have := List.mem_range.mp hi
      norm_num
      omega)
  rw [heq] at hl
  simp at hl

/-! ## Claim theorems -/

/-- C1: for every byte sequence `e` whose bit length `8*len(e)` is in
{128,160,192,224,256} (with the wordlist and SHA-256 contracts),
`MnemonicFromEntropy e` succeeds and `ToEntropy` on the resulting
mnemonic succeeds and returns exactly `e`. -/
theorem claim_C1_round_trip (H : List Nat → List Nat) (wl : List Str)
    (hwl : wl.length = 2048) (hsort : strSorted wl)
    (hsp : ∀ w ∈ wl, ' ' ∉ w) (e : List Nat)
    (hbits : e.length * 8 = 128 ∨ e.length * 8 = 160 ∨ e.length * 8 = 192 ∨
      e.length * 8 = 224 ∨ e.length * 8 = 256)
    (hbytes : ∀ b ∈ e, b < 256)
    (hH32 : (H e).length = 32) (hHb : ∀ b ∈ H e, b < 256) :
    ∃ m, MnemonicFromEntropy H wl e = .ok m ∧ ToEntropy H wl m = .ok e := by
  have hlen : e.length = 16 ∨ e.length = 20 ∨ e.length = 24 ∨ e.length = 28 ∨
      e.length = 32 := by
    rcases hbits with h | h | h | h | h <;> omega
  refine ⟨_, MnemonicFromEntropy_words H wl e hlen hbytes hH32 hHb, ?_⟩
  simp only [ToEntropy,
    getBinaryStrings_encode H wl hwl hsort hsp e hlen hbytes hH32 hHb,
    decodedEntropy, binaryStringToBytes_bytesToBinaryString e hbytes]
  simp

/-- Witness for C1: the round trip evaluated at 16 zero bytes, the
stand-in word list and the stand-in hash. -/
theorem claim_C1_witness :
    ∃ m, MnemonicFromEntropy hashStd wordsListStd (List.replicate 16 0) = .ok m ∧
      ToEntropy hashStd wordsListStd m = .ok (List.replicate 16 0) :=
  claim_C1_round_trip hashStd wordsListStd wordsListStd_length
    wordsListStd_sorted wordsListStd_no_space (List.replicate 16 0)
    (by norm_num)
    (fun b hb => by rw [List.eq_of_mem_replicate hb]; norm_num)
    (by simp [hashStd])
    (fun b hb => by simp [hashStd] at hb; omega)

/-- Helper for C7: on a valid words number, `MnemonicFromWordsNum`
encodes whatever buffer the random source produced, ignoring the source's
error. -/
theorem MnemonicFromWordsNum_eq (r : Nat → List Nat × Option Err)
    (H : List Nat → List Nat) (wl : List Str) (n : Nat)
    (h : n = 12 ∨ n = 15 ∨ n = 18 ∨ n = 21 ∨ n = 24) :
    MnemonicFromWordsNum r H wl n =
      MnemonicFromEntropy H wl (r ((n * 11 - n / 3) / 8)).1 := by
  have hv : validateEntropyBitLen (n * 11 - n / 3) = none := by
    unfold validateEntropyBitLen
    rw [if_pos]
    rcases h with rfl | rfl | rfl | rfl | rfl <;> norm_num
  simp only [MnemonicFromWordsNum, validateWordsNum, if_pos h,
    GenerateEntropy, hv, Option.getD_some]

/-- C2: `GenerateSeed` first runs the full validation; a validation error
is propagated unchanged with no seed; on success the seed is PBKDF2
(with SHA-512, the `pbk` parameter) of the UTF-8 bytes of the words
string, with salt the UTF-8 bytes of `"mnemonic"` followed by the
passphrase, 2048 iterations and 64-byte output. -/
theorem claim_C2_generateSeed (pbk : List Nat → List Nat → Nat → Nat → List Nat)
    (H : List Nat → List Nat) (wl : List Str) (m : Mnemonic) (p : Str) :
    GenerateSeed pbk H wl m p =
      match Validate H wl m with
      | some e => .error e
      | none => .ok (pbk (utf8Encode m.Words)
          (utf8Encode (['m', 'n', 'e', 'm', 'o', 'n', 'i', 'c'] ++ p)) 2048 64) :=
  rfl

/-- C6 (amended): `GenerateEntropy` fails with `ErrEntropyBitLen` and a
nil buffer unless the bit length is one of the five permitted values; on
the valid path it returns the random source's buffer and error as-is, so
a random-source failure is propagated but accompanied by the (non-nil)
buffer. -/
theorem claim_C6_amended (r : Nat → List Nat × Option Err) (bitLen : Nat) :
    GenerateEntropy r bitLen =
      if bitLen = 128 ∨ bitLen = 160 ∨ bitLen = 192 ∨ bitLen = 224 ∨
        bitLen = 256
      then (some (r (bitLen / 8)).1, (r (bitLen / 8)).2)
      else (none, some .entropyBitLen) := by
  by_cases h : bitLen = 128 ∨ bitLen = 160 ∨ bitLen = 192 ∨ bitLen = 224 ∨
      bitLen = 256
  · simp only [GenerateEntropy, validateEntropyBitLen, if_pos h]
  · simp only [GenerateEntropy, validateEntropyBitLen, if_neg h]

/-- Counterexample for C6 as stated: on a random-source failure the
returned buffer is not nil — it sits alongside the propagated error. -/
theorem claim_C6_counterexample :
    (GenerateEntropy randFailStd 128).1 = some (List.replicate 16 7) ∧
    (GenerateEntropy randFailStd 128).2 = some Err.randFail := by
  constructor <;> rfl

/-- C7 (amended): for a valid words number the entropy bit length is
`wordsNum*11 - wordsNum/3`, but a failure of the random source is
discarded, and the buffer it produced is encoded regardless. -/
theorem claim_C7_amended (r : Nat → List Nat × Option Err)
    (H : List Nat → List Nat) (wl : List Str) (n : Nat)
    (h : n = 12 ∨ n = 15 ∨ n = 18 ∨ n = 21 ∨ n = 24) :
    MnemonicFromWordsNum r H wl n =
      MnemonicFromEntropy H wl (r ((n * 11 - n / 3) / 8)).1 :=
  MnemonicFromWordsNum_eq r H wl n h

/-- Witness for C7's amended statement at 12 words and a failing random
source. -/
theorem claim_C7_witness :
    MnemonicFromWordsNum randFailStd hashStd wordsListStd 12 =
      MnemonicFromEntropy hashStd wordsListStd
        ((randFailStd ((12 * 11 - 12 / 3) / 8)).1) :=
  claim_C7_amended randFailStd hashStd wordsListStd 12 (by norm_num)

/-- Counterexample for C7 as stated: with a failing random source, a
mnemonic is still returned (the error was swallowed). -/
theorem claim_C7_counterexample :
    isOkE (MnemonicFromWordsNum randFailStd hashStd wordsListStd 12) = true := by
  rw [MnemonicFromWordsNum_eq randFailStd hashStd wordsListStd 12 (by norm_num)]
  have hbuf : (randFailStd ((12 * 11 - 12 / 3) / 8)).1 = List.replicate 16 7 := rfl
  rw [hbuf, MnemonicFromEntropy_words hashStd wordsListStd (List.replicate 16 7)
    (by norm_num)
    (fun b hb => by rw [List.eq_of_mem_replicate hb]; norm_num)
    (by simp [hashStd])
    (fun b hb => by simp [hashStd] at hb; omega)]
  rfl

/-- C8: `bytesToBinaryString` and `binaryStringToBytes` are mutually
inverse — on any byte sequence, and on any 0/1 string of length a
multiple of 8. -/
theorem claim_C8_inverse :
    (∀ b : List Nat, (∀ x ∈ b, x < 256) →
      binaryStringToBytes (bytesToBinaryString b) = .ok b) ∧
    (∀ s : Str, (∀ c ∈ s, isBinDigit c = true) → s.length % 8 = 0 →
      ∃ bs, binaryStringToBytes s = .ok bs ∧ bytesToBinaryString bs = s) := by
  constructor
  · exact binaryStringToBytes_bytesToBinaryString
  · intro s hb hlen
    obtain ⟨n, hn⟩ : ∃ n, s.length = 8 * n := ⟨s.length / 8, by omega⟩
    obtain ⟨bs, h1, h2, _⟩ := chunksToBytes_roundtrip n s hn hb
    refine ⟨bs, ?_, h2⟩
    unfold binaryStringToBytes
    rw [if_neg (by omega)]
    exact h1

/-- Witness for C8: both directions at concrete inputs. -/
theorem claim_C8_witness :
    binaryStringToBytes (bytesToBinaryString [5, 250]) = .ok [5, 250] ∧
    ∃ bs, binaryStringToBytes ['0', '0', '0', '0', '0', '1', '1', '1'] = .ok bs ∧
      bytesToBinaryString bs = ['0', '0', '0', '0', '0', '1', '1', '1'] :=
  ⟨claim_C8_inverse.1 [5, 250] (by
      intro x hx
      rcases List.mem_cons.mp hx with rfl | hx2
      · norm_num
      · rcases List.mem_cons.mp hx2 with rfl | hx3
        · norm_num
        · simp at hx3),
   claim_C8_inverse.2 ['0', '0', '0', '0', '0', '1', '1', '1'] (by decide)
     (by decide)⟩

theorem chunksToBytes_nil : chunksToBytes [] = .ok [] := by
  rw [chunksToBytes.eq_def]

/-- `strconv.ParseInt(_, 2, 16)` on at most 15 characters never reports a
range error. -/
theorem parseIntB2_short_err (s : Str) (hlen : s.length ≤ 15) :
    (parseIntB2 s).2 = none ∨ (parseIntB2 s).2 = some .parseSyn := by
  unfold parseIntB2
  by_cases h1 : (if (s.head? = some '+' ∨ s.head? = some '-') then s.tail else s) = [] ∨
      ¬ (if (s.head? = some '+' ∨ s.head? = some '-') then s.tail else s).all isBinDigit = true
  · rw [if_pos h1]
    right
    rfl
  · rw [if_neg h1]
    have hdl : (if (s.head? = some '+' ∨ s.head? = some '-') then s.tail else s).length ≤ 15 := by
      split
      · calc s.tail.length ≤ s.length := by
              rw [List.length_tail]
              omega
          _ ≤ 15 := hlen
      · exact hlen
    have hval : parseBits (if (s.head? = some '+' ∨ s.head? = some '-') then s.tail else s) < 32768 := by
      have h2 := parseBits_lt (if (s.head? = some '+' ∨ s.head? = some '-') then s.tail else s)
      have h3 : (2 : Nat) ^ (if (s.head? = some '+' ∨ s.head? = some '-') then s.tail else s).length ≤ 2 ^ 15 :=
        Nat.pow_le_pow_right (by omega) hdl
      norm_num at h3
      omega
    rw [if_neg]
    · left
      rfl
    · intro hcon
      rcases hcon with hcon | hcon
      · split at hcon <;> omega
      · split at hcon <;> omega

/-- Any error of the chunk loop is the ParseInt syntax error. -/
theorem chunksToBytes_err_val (s : Str) (er : Err)
    (h : chunksToBytes s = .error er) : er = .parseSyn := by
  suffices H : ∀ n s_1 er_1, (s_1 : Str).length ≤ n →
      chunksToBytes s_1 = .error er_1 → er_1 = Err.parseSyn by
    exact H s.length s er (le_refl _) h
  intro n
  induction n with
  | zero =>
    intro s1 er1 hlen h1
    have : s1 = [] := List.eq_nil_of_length_eq_zero (by omega)
    subst this
    rw [chunksToBytes_nil] at h1
    cases h1
  | succ k ih =>
    intro s1 er1 hlen h1
    cases s1 with
    | nil =>
      rw [chunksToBytes_nil] at h1
      cases h1
    | cons c cs =>
      rw [chunksToBytes.eq_def] at h1
      simp only at h1
      rcases hp : parseIntB2 ((c :: cs).take 8) with ⟨v, e2⟩
      rw [hp] at h1
      cases e2 with
      | some e3 =>
        have hc8 : ((c :: cs).take 8).length ≤ 15 := by
          rw [List.length_take]
          omega
        rcases parseIntB2_short_err _ hc8 with hx | hx <;> rw [hp] at hx
        · simp at hx
        · simp only at hx
          cases h1
          cases hx
          rfl
      | none =>
        rcases hr : chunksToBytes (cs.drop 7) with e4 | rest <;> rw [hr] at h1
        · cases h1
          exact ih (cs.drop 7) er1 (by
            rw [List.length_drop]
            simp only [List.length_cons] at hlen
            omega) hr
        · cases h1

/-- One step of the chunk loop on any leading 8-character group. -/
theorem chunksToBytes_cons8 (s t : Str) (hlen : s.length = 8) :
    chunksToBytes (s ++ t) =
      match parseIntB2 s with
      | (_, some e) => .error e
      | (v, none) =>
        match chunksToBytes t with
        | .error e => .error e
        | .ok rest => .ok ((v % 256).toNat :: rest) := by
  cases s with
  | nil => simp at hlen
  | cons c cs =>
    have htake : (c :: (cs ++ t)).take 8 = c :: cs := by
      rw [← List.cons_append]
      exact List.take_left' hlen
    have h7 : cs.length = 7 := by simpa using hlen
    have hdrop : (cs ++ t).drop 7 = t := List.drop_left' h7
    rw [chunksToBytes.eq_def]
    simp only [List.cons_append, htake, hdrop]

/-- The chunk loop fails exactly when some 8-character group fails to
parse. -/
theorem chunksToBytes_err_iff (n : Nat) : ∀ s : Str, s.length = 8 * n →
    ((∃ er, chunksToBytes s = .error er) ↔
      ∃ i, i < n ∧ (parseIntB2 ((s.drop (8 * i)).take 8)).2 ≠ none) := by
  induction n with
  | zero =>
    intro s hlen
    have : s = [] := List.eq_nil_of_length_eq_zero (by omega)
    subst this
    rw [chunksToBytes_nil]
    constructor
    · rintro ⟨er, her⟩
      cases her
    · rintro ⟨i, hi, _⟩
      omega
  | succ k ih =>
    intro s hlen
    have hsplit : s.take 8 ++ s.drop 8 = s := List.take_append_drop 8 s
    have htl : (s.take 8).length = 8 := by
      rw [List.length_take]
      omega
    have hstep := chunksToBytes_cons8 (s.take 8) (s.drop 8) htl
    rw [hsplit] at hstep
    have hdl : (s.drop 8).length = 8 * k := by
      rw [List.length_drop]
      omega
    have hshift : ∀ i, ((s.drop 8).drop (8 * i)).take 8 =
        (s.drop (8 * (i + 1))).take 8 := by
      intro i
      rw [List.drop_drop]
      congr 2
      omega
    have hchunk0 : (s.take 8) = (s.drop (8 * 0)).take 8 := by
      norm_num
    rcases hp : parseIntB2 (s.take 8) with ⟨v, e2⟩
    cases e2 with
    | some e3 =>
      rw [hstep, hp]
      constructor
      · intro _
        refine ⟨0, by omega, ?_⟩
        rw [← hchunk0, hp]
        simp
      · intro _
        exact ⟨e3, rfl⟩
    | none =>
      rw [hstep, hp]
      rcases hr : chunksToBytes (s.drop 8) with e4 | rest
      · constructor
        · intro _
          obtain ⟨i, hik, hbad⟩ := (ih (s.drop 8) hdl).mp ⟨e4, hr⟩
          refine ⟨i + 1, by omega, ?_⟩
          rw [← hshift i]
          exact hbad
        · intro _
          exact ⟨e4, rfl⟩
      · constructor
        · rintro ⟨er, her⟩
          cases her
        · rintro ⟨i, hik, hbad⟩
          exfalso
          cases i with
          | zero =>
            rw [← hchunk0, hp] at hbad
            simp at hbad
          | succ j =>
            have hnone : ¬ ∃ er, chunksToBytes (s.drop 8) = .error er := by
              rintro ⟨er, her⟩
              rw [hr] at her
              cases her
            apply hnone
            apply (ih (s.drop 8) hdl).mpr
            refine ⟨j, by omega, ?_⟩
            rw [hshift j]
            exact hbad

/-- On an all-digits string the chunk loop returns exactly the 8-digit
groups' values, most significant digit first. -/
theorem chunksToBytes_bits (n : Nat) : ∀ s : Str, s.length = 8 * n →
    (∀ c ∈ s, isBinDigit c = true) →
    chunksToBytes s =
      .ok ((List.range n).map (fun i => parseBits ((s.drop (8 * i)).take 8))) := by
  induction n with
  | zero =>
    intro s hlen _
    have : s = [] := List.eq_nil_of_length_eq_zero (by omega)
    subst this
    rw [chunksToBytes_nil]
    rfl
  | succ k ih =>
    intro s hlen hb
    have hsplit : s.take 8 ++ s.drop 8 = s := List.take_append_drop 8 s
    have htl : (s.take 8).length = 8 := by
      rw [List.length_take]
      omega
    have htb : ∀ c ∈ s.take 8, isBinDigit c = true :=
      fun c hc => hb c (List.mem_of_mem_take hc)
    have hdb : ∀ c ∈ s.drop 8, isBinDigit c = true :=
      fun c hc => hb c (List.mem_of_mem_drop hc)
    have hdl : (s.drop 8).length = 8 * k := by
      rw [List.length_drop]
      omega
    have hstep := chunksToBytes_step (s.take 8) (s.drop 8) htl htb
    rw [hsplit] at hstep
    rw [hstep, ih (s.drop 8) hdl hdb]
    have hmap2 : (List.range k).map
        ((fun i => parseBits ((s.drop (8 * i)).take 8)) ∘ Nat.succ) =
        (List.range k).map (fun i =>
          parseBits (((s.drop 8).drop (8 * i)).take 8)) := by
      apply List.map_congr_left
      intro i _
      simp only [Function.comp_apply]
      rw [List.drop_drop]
      have h8 : 8 * Nat.succ i = 8 + 8 * i := by omega
      rw [h8]
    rw [List.range_succ_eq_map, List.map_cons, List.map_map, hmap2]
    simp only [Nat.mul_zero, List.drop_zero]

/-- C5 (amended): `binaryStringToBytes` fails with `ErrBinaryString`
exactly when the length is not a multiple of 8; with a valid length and
only 0/1 characters it succeeds, grouping each consecutive 8 digits into
one byte most-significant-bit first; any other failure is the ParseInt
syntax error (not `ErrBinaryString`), which occurs exactly when some
8-character group is rejected by Go's signed base-2 integer parsing. -/
theorem claim_C5_amended :
    (∀ s : Str, binaryStringToBytes s = .error .binaryString ↔
      s.length % 8 ≠ 0) ∧
    (∀ s : Str, s.length % 8 = 0 → (∀ c ∈ s, isBinDigit c = true) →
      binaryStringToBytes s = .ok ((List.range (s.length / 8)).map
        (fun i => parseBits ((s.drop (8 * i)).take 8)))) ∧
    (∀ s : Str, binaryStringToBytes s = .error .parseSyn ↔
      (s.length % 8 = 0 ∧ ∃ i, i < s.length / 8 ∧
        (parseIntB2 ((s.drop (8 * i)).take 8)).2 = some .parseSyn)) := by
  refine ⟨?_, ?_, ?_⟩
  · intro s
    unfold binaryStringToBytes
    by_cases h : s.length % 8 ≠ 0
    · rw [if_pos h]
      simp [h]
    · rw [if_neg h]
      constructor
      · intro hcon
        have := chunksToBytes_err_val s _ hcon
        cases this
      · intro hcon
        exact absurd hcon h
  · intro s hlen hb
    unfold binaryStringToBytes
    rw [if_neg (by omega)]
    have h8 : s.length = 8 * (s.length / 8) := by omega
    exact chunksToBytes_bits (s.length / 8) s h8 hb
  · intro s
    unfold binaryStringToBytes
    by_cases h : s.length % 8 ≠ 0
    · rw [if_pos h]
      constructor
      · intro hcon
        cases hcon
      · rintro ⟨h1, _⟩
        exact absurd h1 h
    · rw [if_neg h]
      have h8 : s.length = 8 * (s.length / 8) := by omega
      constructor
      · intro hcon
        refine ⟨by omega, ?_⟩
        obtain ⟨i, hik, hbad⟩ :=
          (chunksToBytes_err_iff (s.length / 8) s h8).mp ⟨_, hcon⟩
        refine ⟨i, hik, ?_⟩
        have hc15 : ((s.drop (8 * i)).take 8).length ≤ 15 := by
          rw [List.length_take]
          omega
        rcases parseIntB2_short_err _ hc15 with hx | hx
        · exact absurd hx hbad
        · exact hx
      · rintro ⟨_, i, hik, hbad⟩
        obtain ⟨er, her⟩ := (chunksToBytes_err_iff (s.length / 8) s h8).mpr
          ⟨i, hik, by rw [hbad]; simp⟩
        rw [her, chunksToBytes_err_val s er her]

/-- Counterexample for C5 as stated: the 8-character string `+0000001`
contains a character other than 0/1, yet `binaryStringToBytes` succeeds
(Go's ParseInt accepts a leading sign) — it neither fails at all nor
fails with `ErrBinaryString`. -/
theorem claim_C5_counterexample :
    binaryStringToBytes ['+', '0', '0', '0', '0', '0', '0', '1'] = .ok [1] ∧
    ¬ ('+' = '0' ∨ '+' = '1') ∧
    (['+', '0', '0', '0', '0', '0', '0', '1'] : Str).length % 8 = 0 := by
  refine ⟨?_, by decide, by decide⟩
  have hstep := chunksToBytes_cons8 ['+', '0', '0', '0', '0', '0', '0', '1'] []
    (by decide)
  rw [List.append_nil] at hstep
  have hp : parseIntB2 ['+', '0', '0', '0', '0', '0', '0', '1'] =
      ((1 : Int), none) := by decide
  rw [hp] at hstep
  rw [chunksToBytes_nil] at hstep
  unfold binaryStringToBytes
  rw [if_neg (by decide)]
  rw [hstep]
  rfl

/-- Witness for C5's amended statement: each part at a concrete input. -/
theorem claim_C5_witness :
    binaryStringToBytes ['0'] = .error .binaryString ∧
    binaryStringToBytes ['0', '0', '0', '0', '0', '1', '1', '1'] =
      .ok ((List.range ((['0', '0', '0', '0', '0', '1', '1', '1'] : Str).length / 8)).map
        (fun i => parseBits (((['0', '0', '0', '0', '0', '1', '1', '1'] : Str).drop
          (8 * i)).take 8))) ∧
    binaryStringToBytes ['2', '0', '0', '0', '0', '0', '0', '1'] =
      .error .parseSyn :=
  ⟨(claim_C5_amended.1 ['0']).mpr (by decide),
   claim_C5_amended.2.1 ['0', '0', '0', '0', '0', '1', '1', '1'] (by decide)
     (by decide),
   (claim_C5_amended.2.2 ['2', '0', '0', '0', '0', '0', '0', '1']).mpr
     ⟨by decide, 0, by decide, by decide⟩⟩

theorem validateWordsNum_none_iff (n : Nat) :
    validateWordsNum n = none ↔
      (n = 12 ∨ n = 15 ∨ n = 18 ∨ n = 21 ∨ n = 24) := by
  unfold validateWordsNum
  split <;> simp_all

theorem validateWordsNum_some_iff (n : Nat) :
    validateWordsNum n = some .wordsNum ↔
      ¬ (n = 12 ∨ n = 15 ∨ n = 18 ∨ n = 21 ∨ n = 24) := by
  unfold validateWordsNum
  split <;> simp_all

/-- A `getBinaryStrings` error propagates unchanged through the four
decode entry points. -/
theorem decode_error (H : List Nat → List Nat) (wl : List Str)
    (pbk : List Nat → List Nat → Nat → Nat → List Nat)
    (m : Mnemonic) (er : Err)
    (hgbs : getBinaryStrings wl m = .error er) :
    ToEntropy H wl m = .error er ∧ Validate H wl m = some er ∧
    IsValid H wl m = false ∧
    ∀ p, GenerateSeed pbk H wl m p = .error er := by
  have hv : Validate H wl m = some er := by
    simp only [Validate, hgbs]
  refine ⟨by simp only [ToEntropy, hgbs], hv, ?_, ?_⟩
  · simp [IsValid, hv]
  · intro p
    simp only [GenerateSeed, hv]

/-- After a successful `getBinaryStrings`, the four decode entry points
are entirely decided by the checksum comparison. -/
theorem decode_ok (H : List Nat → List Nat) (wl : List Str)
    (pbk : List Nat → List Nat → Nat → Nat → List Nat)
    (m : Mnemonic) (ebs cbs : Str)
    (hgbs : getBinaryStrings wl m = .ok (ebs, cbs)) :
    ToEntropy H wl m = (if entropyChecksumBinStr H (decodedEntropy ebs) = cbs
      then .ok (decodedEntropy ebs) else .error .checksum) ∧
    Validate H wl m = (if entropyChecksumBinStr H (decodedEntropy ebs) = cbs
      then none else some .checksum) ∧
    IsValid H wl m = decide (entropyChecksumBinStr H (decodedEntropy ebs) = cbs) ∧
    ∀ p, GenerateSeed pbk H wl m p =
      (if entropyChecksumBinStr H (decodedEntropy ebs) = cbs
       then .ok (pbk (utf8Encode m.Words)
         (utf8Encode (seedSaltMod ++ p)) 2048 64)
       else .error .checksum) := by
  by_cases h : entropyChecksumBinStr H (decodedEntropy ebs) = cbs
  · have hv : Validate H wl m = none := by
      simp only [Validate, hgbs]
      rw [if_neg]
      simp [h]
    refine ⟨?_, by simp [hv, h], by simp [IsValid, hv, h], ?_⟩
    · simp only [ToEntropy, hgbs]
      rw [if_neg (by simp [h]), if_pos h]
    · intro p
      simp only [GenerateSeed, hv, if_pos h]
  · have hv : Validate H wl m = some .checksum := by
      simp only [Validate, hgbs]
      rw [if_pos]
      simp [h]
    refine ⟨?_, by simp [hv, h], by simp [IsValid, hv, h], ?_⟩
    · simp only [ToEntropy, hgbs]
      rw [if_pos (by simp [h]), if_neg h]
    · intro p
      simp only [GenerateSeed, hv, if_neg h]

/-- Every word of the stand-in word list has 11 characters. -/
theorem mem_wordsListStd_length : ∀ w ∈ wordsListStd, w.length = 11 := by
  intro w hw
  unfold wordsListStd at hw
  rw [List.mem_map] at hw
  obtain ⟨i, hi, rfl⟩ := hw
  exact padBin_length i 11 (by omega) (by
    have := List.mem_range.mp hi
    norm_num
    omega)

/-- C3: the decode path checks errors in a fixed priority order — an
invalid word count fails with `ErrWordsNum` regardless of the words; a
valid count with a word missing from the (sorted) word list fails with
`ErrInvalidWord` regardless of the checksum; with a valid count and all
words present, the outcome of all four entry points is decided by the
checksum comparison alone, failing with `ErrChecksum` on mismatch. -/
theorem claim_C3_error_priority
    (pbk : List Nat → List Nat → Nat → Nat → List Nat)
    (H : List Nat → List Nat) (wl : List Str) (hsort : strSorted wl)
    (s : Str) :
    (¬ ((splitOnSpace s).length = 12 ∨ (splitOnSpace s).length = 15 ∨
        (splitOnSpace s).length = 18 ∨ (splitOnSpace s).length = 21 ∨
        (splitOnSpace s).length = 24) →
      ToEntropy H wl ⟨s⟩ = .error .wordsNum ∧
      Validate H wl ⟨s⟩ = some .wordsNum ∧
      IsValid H wl ⟨s⟩ = false ∧
      ∀ p, GenerateSeed pbk H wl ⟨s⟩ p = .error .wordsNum) ∧
    (((splitOnSpace s).length = 12 ∨ (splitOnSpace s).length = 15 ∨
        (splitOnSpace s).length = 18 ∨ (splitOnSpace s).length = 21 ∨
        (splitOnSpace s).length = 24) →
      (∃ w ∈ splitOnSpace s, w ∉ wl) →
      ToEntropy H wl ⟨s⟩ = .error .invalidWord ∧
      Validate H wl ⟨s⟩ = some .invalidWord ∧
      IsValid H wl ⟨s⟩ = false ∧
      ∀ p, GenerateSeed pbk H wl ⟨s⟩ p = .error .invalidWord) ∧
    (((splitOnSpace s).length = 12 ∨ (splitOnSpace s).length = 15 ∨
        (splitOnSpace s).length = 18 ∨ (splitOnSpace s).length = 21 ∨
        (splitOnSpace s).length = 24) →
      (∀ w ∈ splitOnSpace s, w ∈ wl) →
      ∃ ebs cbs, getBinaryStrings wl ⟨s⟩ = .ok (ebs, cbs) ∧
        ToEntropy H wl ⟨s⟩ =
          (if entropyChecksumBinStr H (decodedEntropy ebs) = cbs
           then .ok (decodedEntropy ebs) else .error .checksum) ∧
        Validate H wl ⟨s⟩ =
          (if entropyChecksumBinStr H (decodedEntropy ebs) = cbs
           then none else some .checksum) ∧
        IsValid H wl ⟨s⟩ =
          decide (entropyChecksumBinStr H (decodedEntropy ebs) = cbs) ∧
        ∀ p, GenerateSeed pbk H wl ⟨s⟩ p =
          (if entropyChecksumBinStr H (decodedEntropy ebs) = cbs
           then .ok (pbk (utf8Encode s) (utf8Encode (seedSaltMod ++ p)) 2048 64)
           else .error .checksum)) := by
  refine ⟨?_, ?_, ?_⟩
  · intro hn
    have hvn : validateWordsNum (splitOnSpace s).length = some .wordsNum :=
      (validateWordsNum_some_iff _).mpr hn
    have hgbs : getBinaryStrings wl ⟨s⟩ = .error .wordsNum := by
      simp only [getBinaryStrings, hvn]
    exact decode_error H wl pbk ⟨s⟩ .wordsNum hgbs
  · intro hc hbad
    have hvn : validateWordsNum (splitOnSpace s).length = none :=
      (validateWordsNum_none_iff _).mpr hc
    obtain ⟨w, hwmem, hwnot⟩ := hbad
    have hwtb : wordsToBin wl (splitOnSpace s) = .error .invalidWord :=
      wordsToBin_error wl (splitOnSpace s)
        ⟨w, hwmem, stringBinarySearch_not_mem wl w hwnot⟩
    have hgbs : getBinaryStrings wl ⟨s⟩ = .error .invalidWord := by
      simp only [getBinaryStrings, hvn, hwtb]
    exact decode_error H wl pbk ⟨s⟩ .invalidWord hgbs
  · intro hc hall
    have hvn : validateWordsNum (splitOnSpace s).length = none :=
      (validateWordsNum_none_iff _).mpr hc
    have hwtb := wordsToBin_ok_of_mem wl hsort (splitOnSpace s) hall
    have hgbs : getBinaryStrings wl ⟨s⟩ = .ok
        ((((splitOnSpace s).map (fun w =>
            padBin 11 (stringBinarySearch wl w).toNat)).flatten).take
          ((((splitOnSpace s).map (fun w =>
            padBin 11 (stringBinarySearch wl w).toNat)).flatten).length -
           (((splitOnSpace s).map (fun w =>
            padBin 11 (stringBinarySearch wl w).toNat)).flatten).length / 33),
         (((splitOnSpace s).map (fun w =>
            padBin 11 (stringBinarySearch wl w).toNat)).flatten).drop
          ((((splitOnSpace s).map (fun w =>
            padBin 11 (stringBinarySearch wl w).toNat)).flatten).length -
           (((splitOnSpace s).map (fun w =>
            padBin 11 (stringBinarySearch wl w).toNat)).flatten).length / 33)) := by
      simp only [getBinaryStrings, hvn, hwtb]
    exact ⟨_, _, hgbs, decode_ok H wl pbk ⟨s⟩ _ _ hgbs⟩

/-- C9: a mnemonic with a valid word count containing an empty token
(from a leading, trailing or doubled space) fails with `ErrInvalidWord`
in all decode entry points — the empty token is searched like any word
and is not in the word list. -/
theorem claim_C9_empty_token
    (pbk : List Nat → List Nat → Nat → Nat → List Nat)
    (H : List Nat → List Nat) (wl : List Str) (s : Str)
    (hnil : [] ∉ wl)
    (hcount : (splitOnSpace s).length = 12 ∨ (splitOnSpace s).length = 15 ∨
      (splitOnSpace s).length = 18 ∨ (splitOnSpace s).length = 21 ∨
      (splitOnSpace s).length = 24)
    (hmem : [] ∈ splitOnSpace s) :
    ToEntropy H wl ⟨s⟩ = .error .invalidWord ∧
    Validate H wl ⟨s⟩ = some .invalidWord ∧
    IsValid H wl ⟨s⟩ = false ∧
    ∀ p, GenerateSeed pbk H wl ⟨s⟩ p = .error .invalidWord := by
  have hvn : validateWordsNum (splitOnSpace s).length = none :=
    (validateWordsNum_none_iff _).mpr hcount
  have hwtb : wordsToBin wl (splitOnSpace s) = .error .invalidWord :=
    wordsToBin_error wl (splitOnSpace s)
      ⟨[], hmem, stringBinarySearch_not_mem wl [] hnil⟩
  have hgbs : getBinaryStrings wl ⟨s⟩ = .error .invalidWord := by
    simp only [getBinaryStrings, hvn, hwtb]
  exact decode_error H wl pbk ⟨s⟩ .invalidWord hgbs

theorem flatten_padBin_length (idxs : List Nat)
    (h : ∀ k ∈ idxs, k < 2048) :
    ((idxs.map (padBin 11)).flatten).length = 11 * idxs.length := by
  induction idxs with
  | nil => rfl
  | cons k t ih =>
    simp only [List.map_cons, List.flatten_cons, List.length_append,
      List.length_cons]
    rw [padBin_length k 11 (by omega) (by
      have := h k (List.mem_cons_self k t)
      norm_num
      omega)]
    rw [ih (fun x hx => h x (List.mem_cons_of_mem k hx))]
    ring

theorem flatten_padBin_bits (idxs : List Nat) :
    ∀ c ∈ (idxs.map (padBin 11)).flatten, isBinDigit c = true := by
  intro c hc
  rw [List.mem_flatten] at hc
  obtain ⟨l, hl, hcl⟩ := hc
  rw [List.mem_map] at hl
  obtain ⟨k, _, rfl⟩ := hl
  exact padBin_all_bits 11 k c hcl

/-- C10: whenever `getBinaryStrings` succeeds under the 2048-entry word
list, the entropy prefix has length `N*11 - (N*11)/33` for word count
`N`, which is a positive multiple of 8; it consists only of binary
digits, so the `binaryStringToBytes` conversion that `ToEntropy` and
`Validate` run on it succeeds — the discarded error branch is
unreachable. -/
theorem claim_C10_prefix_safe (wl : List Str) (hwl : wl.length = 2048)
    (m : Mnemonic) (ebs cbs : Str)
    (h : getBinaryStrings wl m = .ok (ebs, cbs)) :
    ebs.length = (splitOnSpace m.Words).length * 11 -
      ((splitOnSpace m.Words).length * 11) / 33 ∧
    0 < ebs.length ∧ ebs.length % 8 = 0 ∧
    (∀ c ∈ ebs, isBinDigit c = true) ∧
    ∃ bs, binaryStringToBytes ebs = .ok bs := by
  rcases hvn : validateWordsNum (splitOnSpace m.Words).length with _ | er
  · rcases hwtb : wordsToBin wl (splitOnSpace m.Words) with er | binStr
    · simp only [getBinaryStrings, hvn, hwtb] at h
      cases h
    · simp only [getBinaryStrings, hvn, hwtb] at h
      rw [Except.ok.injEq, Prod.mk.injEq] at h
      obtain ⟨hebs, hcbs⟩ := h
      obtain ⟨idxs, hilen, hirng, hflat⟩ := wordsToBin_ok wl _ binStr hwtb
      have hrng2 : ∀ k ∈ idxs, k < 2048 := fun k hk => hwl ▸ hirng k hk
      have hL : binStr.length = 11 * (splitOnSpace m.Words).length := by
        rw [hflat, flatten_padBin_length idxs hrng2, hilen]
      have hbits : ∀ c ∈ binStr, isBinDigit c = true := by
        rw [hflat]
        exact flatten_padBin_bits idxs
      have hN := (validateWordsNum_none_iff _).mp hvn
      have hel : ebs.length = binStr.length - binStr.length / 33 := by
        rw [← hebs, List.length_take]
        omega
      refine ⟨by omega, by omega, by omega, ?_, ?_⟩
      · intro c hc
        rw [← hebs] at hc
        exact hbits c (List.mem_of_mem_take hc)
      · have h8 : ebs.length = 8 * (ebs.length / 8) := by omega
        have hbs := chunksToBytes_bits (ebs.length / 8) ebs h8 (by
          intro c hc
          rw [← hebs] at hc
          exact hbits c (List.mem_of_mem_take hc))
        exact ⟨_, by
          unfold binaryStringToBytes
          rw [if_neg (by omega)]
          exact hbs⟩
  · simp only [getBinaryStrings, hvn] at h
    cases h

/-- C4: on valid-length entropy the encoder succeeds; the word count is
exactly `(bits + bits/32)/11`, always one of {12,15,18,21,24}, and each
word is the wordlist entry selected by the corresponding 11-bit
big-endian group of the entropy digits followed by the leading `bits/32`
digits of the hash. -/
theorem claim_C4_word_count (H : List Nat → List Nat) (wl : List Str)
    (hwl : wl.length = 2048) (hsp : ∀ w ∈ wl, ' ' ∉ w) (e : List Nat)
    (hbits : e.length * 8 = 128 ∨ e.length * 8 = 160 ∨ e.length * 8 = 192 ∨
      e.length * 8 = 224 ∨ e.length * 8 = 256)
    (hbytes : ∀ b ∈ e, b < 256)
    (hH32 : (H e).length = 32) (hHb : ∀ b ∈ H e, b < 256) :
    ∃ m, MnemonicFromEntropy H wl e = .ok m ∧
      (splitOnSpace m.Words).length =
        (e.length * 8 + (e.length * 8) / 32) / 11 ∧
      ((splitOnSpace m.Words).length = 12 ∨
       (splitOnSpace m.Words).length = 15 ∨
       (splitOnSpace m.Words).length = 18 ∨
       (splitOnSpace m.Words).length = 21 ∨
       (splitOnSpace m.Words).length = 24) ∧
      splitOnSpace m.Words =
        (List.range ((e.length * 8 + (e.length * 8) / 32) / 11)).map
          (fun i => wl.getD (parseBits (((bytesToBinaryString e ++
            (bytesToBinaryString (H e)).take ((e.length * 8) / 32)).drop
              (i * 11)).take 11)) []) := by
  have hlen : e.length = 16 ∨ e.length = 20 ∨ e.length = 24 ∨ e.length = 28 ∨
      e.length = 32 := by
    rcases hbits with h | h | h | h | h <;> omega
  refine ⟨_, MnemonicFromEntropy_words H wl e hlen hbytes hH32 hHb, ?_⟩
  have hsplit : splitOnSpace (joinWords (encodeWords H wl e)) =
      encodeWords H wl e := by
    apply splitOnSpace_joinWords
    · unfold encodeWords
      simp only [ne_eq, List.map_eq_nil_iff, List.range_eq_nil]
      rcases hlen with h | h | h | h | h <;> rw [h] <;> norm_num
    · exact fun w hw => hsp w (encodeWords_mem H wl hwl e hlen hbytes hH32 hHb w hw)
  have hrange : 3 * e.length / 4 = (e.length * 8 + (e.length * 8) / 32) / 11 := by
    omega
  have htake : entropyChecksumBinStr H e =
      (bytesToBinaryString (H e)).take ((e.length * 8) / 32) := by
    unfold entropyChecksumBinStr
    have : e.length / 4 = (e.length * 8) / 32 := by omega
    rw [this]
  have hwords : encodeWords H wl e =
      (List.range ((e.length * 8 + (e.length * 8) / 32) / 11)).map
        (fun i => wl.getD (parseBits (((bytesToBinaryString e ++
          (bytesToBinaryString (H e)).take ((e.length * 8) / 32)).drop
            (i * 11)).take 11)) []) := by
    unfold encodeWords
    rw [hrange, htake]
  refine ⟨?_, ?_, ?_⟩
  · rw [hsplit, hwords]
    simp
  · rw [hsplit]
    unfold encodeWords
    simp only [List.length_map, List.length_range]
    rcases hlen with h | h | h | h | h <;> rw [h] <;> norm_num
  · rw [hsplit, hwords]

/-- Witness for C3: the three priority cases at concrete mnemonics over
the stand-in word list. -/
theorem claim_C3_witness :
    (ToEntropy hashStd wordsListStd ⟨['h', 'i']⟩ = .error .wordsNum ∧
     Validate hashStd wordsListStd ⟨['h', 'i']⟩ = some .wordsNum ∧
     IsValid hashStd wordsListStd ⟨['h', 'i']⟩ = false ∧
     ∀ p, GenerateSeed pbkStd hashStd wordsListStd ⟨['h', 'i']⟩ p =
       .error .wordsNum) ∧
    (ToEntropy hashStd wordsListStd ⟨joinWords (List.replicate 12 ['x'])⟩ =
       .error .invalidWord ∧
     Validate hashStd wordsListStd ⟨joinWords (List.replicate 12 ['x'])⟩ =
       some .invalidWord ∧
     IsValid hashStd wordsListStd ⟨joinWords (List.replicate 12 ['x'])⟩ = false ∧
     ∀ p, GenerateSeed pbkStd hashStd wordsListStd
       ⟨joinWords (List.replicate 12 ['x'])⟩ p = .error .invalidWord) ∧
    (∃ ebs cbs, getBinaryStrings wordsListStd
        ⟨joinWords (List.replicate 12 (padBin 11 0))⟩ = .ok (ebs, cbs) ∧
      ToEntropy hashStd wordsListStd
          ⟨joinWords (List.replicate 12 (padBin 11 0))⟩ =
        (if entropyChecksumBinStr hashStd (decodedEntropy ebs) = cbs
         then .ok (decodedEntropy ebs) else .error .checksum) ∧
      Validate hashStd wordsListStd
          ⟨joinWords (List.replicate 12 (padBin 11 0))⟩ =
        (if entropyChecksumBinStr hashStd (decodedEntropy ebs) = cbs
         then none else some .checksum) ∧
      IsValid hashStd wordsListStd
          ⟨joinWords (List.replicate 12 (padBin 11 0))⟩ =
        decide (entropyChecksumBinStr hashStd (decodedEntropy ebs) = cbs) ∧
      ∀ p, GenerateSeed pbkStd hashStd wordsListStd
          ⟨joinWords (List.replicate 12 (padBin 11 0))⟩ p =
        (if entropyChecksumBinStr hashStd (decodedEntropy ebs) = cbs
         then .ok (pbkStd
           (utf8Encode (joinWords (List.replicate 12 (padBin 11 0))))
           (utf8Encode (seedSaltMod ++ p)) 2048 64)
         else .error .checksum)) := by
  have hx : (['x'] : Str) ∉ wordsListStd := by
    intro hc
    have := mem_wordsListStd_length ['x'] hc
    simp at this
  have hsp0 : ∀ w ∈ List.replicate 12 (padBin 11 0), ' ' ∉ w := by
    intro w hw hc
    rw [List.eq_of_mem_replicate hw] at hc
    have := padBin_all_bits 11 0 ' ' hc
    simp [isBinDigit] at this
  have hsplitc : splitOnSpace (joinWords (List.replicate 12 (padBin 11 0))) =
      List.replicate 12 (padBin 11 0) :=
    splitOnSpace_joinWords _ (by simp) hsp0
  refine ⟨?_, ?_, ?_⟩
  · exact (claim_C3_error_priority pbkStd hashStd wordsListStd
      wordsListStd_sorted ['h', 'i']).1 (by decide)
  · exact (claim_C3_error_priority pbkStd hashStd wordsListStd
      wordsListStd_sorted (joinWords (List.replicate 12 ['x']))).2.1
      (by decide) ⟨['x'], by decide, hx⟩
  · exact (claim_C3_error_priority pbkStd hashStd wordsListStd
      wordsListStd_sorted (joinWords (List.replicate 12 (padBin 11 0)))).2.2
      (by rw [hsplitc]; simp)
      (by
        intro w hw
        rw [hsplitc] at hw
        rw [List.eq_of_mem_replicate hw]
        unfold wordsListStd
        rw [List.mem_map]
        exact ⟨0, List.mem_range.mpr (by norm_num), rfl⟩)

/-- Witness for C4: the word-count law at 16 zero bytes over the
stand-in word list and hash. -/
theorem claim_C4_witness :
    ∃ m, MnemonicFromEntropy hashStd wordsListStd (List.replicate 16 0) =
        .ok m ∧
      (splitOnSpace m.Words).length =
        ((List.replicate 16 (0 : Nat)).length * 8 +
          ((List.replicate 16 (0 : Nat)).length * 8) / 32) / 11 ∧
      ((splitOnSpace m.Words).length = 12 ∨
       (splitOnSpace m.Words).length = 15 ∨
       (splitOnSpace m.Words).length = 18 ∨
       (splitOnSpace m.Words).length = 21 ∨
       (splitOnSpace m.Words).length = 24) ∧
      splitOnSpace m.Words =
        (List.range (((List.replicate 16 (0 : Nat)).length * 8 +
            ((List.replicate 16 (0 : Nat)).length * 8) / 32) / 11)).map
          (fun i => wordsListStd.getD (parseBits
            (((bytesToBinaryString (List.replicate 16 0) ++
              (bytesToBinaryString (hashStd (List.replicate 16 0))).take
                (((List.replicate 16 (0 : Nat)).length * 8) / 32)).drop
              (i * 11)).take 11)) []) :=
  claim_C4_word_count hashStd wordsListStd wordsListStd_length
    wordsListStd_no_space (List.replicate 16 0)
    (by norm_num)
    (fun b hb => by rw [List.eq_of_mem_replicate hb]; norm_num)
    (by simp [hashStd])
    (fun b hb => by simp [hashStd] at hb; omega)

/-- Witness for C9: a leading space in an otherwise 11-word mnemonic
yields twelve tokens, the first empty, and every decode entry point
fails with `ErrInvalidWord`. -/
theorem claim_C9_witness :
    ToEntropy hashStd wordsListStd
      ⟨' ' :: joinWords (List.replicate 11 (padBin 11 0))⟩ =
        .error .invalidWord ∧
    Validate hashStd wordsListStd
      ⟨' ' :: joinWords (List.replicate 11 (padBin 11 0))⟩ =
        some .invalidWord ∧
    IsValid hashStd wordsListStd
      ⟨' ' :: joinWords (List.replicate 11 (padBin 11 0))⟩ = false ∧
    ∀ p, GenerateSeed pbkStd hashStd wordsListStd
      ⟨' ' :: joinWords (List.replicate 11 (padBin 11 0))⟩ p =
        .error .invalidWord := by
  have hsp0 : ∀ w ∈ List.replicate 11 (padBin 11 0), ' ' ∉ w := by
    intro w hw hc
    rw [List.eq_of_mem_replicate hw] at hc
    have := padBin_all_bits 11 0 ' ' hc
    simp [isBinDigit] at this
  have hsplit : splitOnSpace
      (' ' :: joinWords (List.replicate 11 (padBin 11 0))) =
      [] :: List.replicate 11 (padBin 11 0) := by
    have h1 : splitOnSpace (' ' :: joinWords (List.replicate 11 (padBin 11 0))) =
        [] :: splitOnSpace (joinWords (List.replicate 11 (padBin 11 0))) := by
      simp [splitOnSpace]
    rw [h1, splitOnSpace_joinWords _ (by simp) hsp0]
  exact claim_C9_empty_token pbkStd hashStd wordsListStd _
    nil_not_mem_wordsListStd
    (by rw [hsplit]; simp)
    (by rw [hsplit]; exact List.mem_cons_self _ _)

/-- Witness for C10: the entropy-prefix invariants on the successful
decode of an encoded 16-zero-byte mnemonic. -/
theorem claim_C10_witness :
    (bytesToBinaryString (List.replicate 16 0)).length =
      (splitOnSpace (Mnemonic.mk (joinWords (encodeWords hashStd wordsListStd
        (List.replicate 16 0)))).Words).length * 11 -
      ((splitOnSpace (Mnemonic.mk (joinWords (encodeWords hashStd wordsListStd
        (List.replicate 16 0)))).Words).length * 11) / 33 ∧
    0 < (bytesToBinaryString (List.replicate 16 0)).length ∧
    (bytesToBinaryString (List.replicate 16 0)).length % 8 = 0 ∧
    (∀ c ∈ bytesToBinaryString (List.replicate 16 0), isBinDigit c = true) ∧
    ∃ bs, binaryStringToBytes (bytesToBinaryString (List.replicate 16 0)) =
      .ok bs :=
  claim_C10_prefix_safe wordsListStd wordsListStd_length
    ⟨joinWords (encodeWords hashStd wordsListStd (List.replicate 16 0))⟩
    (bytesToBinaryString (List.replicate 16 0))
    (entropyChecksumBinStr hashStd (List.replicate 16 0))
    (getBinaryStrings_encode hashStd wordsListStd wordsListStd_length
      wordsListStd_sorted wordsListStd_no_space (List.replicate 16 0)
      (by norm_num)
      (fun b hb => by rw [List.eq_of_mem_replicate hb]; norm_num)
      (by simp [hashStd])
      (fun b hb => by simp [hashStd] at hb; omega))

end BIP39
